import Mathlib

/-!
Shallow embedding of the class template `MinimumHeap<Comparable>` of
`minimumheap.h` / `minimumheap.tpp`, and of the loops of `main.cpp` that drive it.

* The class keeps a `std::vector<Comparable> _elements` and a `size_t _size`.
  The embedding keeps both fields and models the vector as a list: subscript
  `k` is position `k` of the list, the vector's `size ()` is its length.
* `size_t` is 64-bit: index arithmetic is arithmetic on `Nat` reduced modulo
  `2 ^ 64`.  A vector cannot hold `2 ^ 63` elements, and the theorems about
  heaps carry the bound `_size < 2 ^ 63` under which `2 * i + 2` and
  `_size * 2` do not wrap.
* The operations use nothing of the element type but its `operator<`, a
  decidable relation `<`, and a value-initialised element.  The theorems are
  about element types with a total order (`LinearOrder`); `Keyed` is an element
  type whose ordering is strict weak only.
* Member functions pass the state explicitly.  A function that can throw
  returns the outcome of the call together with the heap left behind.
* The recursion of `minimumHeapify` and the loops are structurally recursive on
  a fuel argument and return `none` when it runs out; the callers hand over
  fuel derived from `_size`, and the theorems show that it is always enough.
-/

set_option autoImplicit false

/-! ## Element types -/

/-- Value left behind in an object after `std::move` has been applied to it.
C++ only promises a valid object there; the value is a parameter of the
embedding (`int`: the same value, `std::string`: usually the empty string). -/
class MovedFrom (α : Type) where
  movedFrom : α → α

export MovedFrom (movedFrom)

instance : MovedFrom Nat := ⟨fun n => n⟩
instance : MovedFrom Int := ⟨fun n => n⟩
instance : MovedFrom String := ⟨fun _ => ""⟩

/-- Text that `out << x` writes for an element `x`: the `operator<<` of the
element type (`int`: decimal digits, `std::string`: the characters). -/
class Streamed (α : Type) where
  put : α → String

instance : Streamed Nat := ⟨fun n => toString n⟩
instance : Streamed Int := ⟨fun n => toString n⟩
instance : Streamed String := ⟨fun s => s⟩

/-- An element type whose `operator<` is a strict weak ordering and not a total
order: a record compared by its `key` alone, as a C++ struct whose `operator<`
looks at one member.  Two records with the same key and different tags are
equivalent under the ordering and are not equal. -/
structure Keyed where
  key : Nat
  tag : Char
deriving DecidableEq, Repr

instance : LT Keyed := ⟨fun a b => a.key < b.key⟩

instance : DecidableRel (fun a b : Keyed => a < b) :=
  fun a b => inferInstanceAs (Decidable (a.key < b.key))

instance : Inhabited Keyed := ⟨{ key := 0, tag := ' ' }⟩

instance : MovedFrom Keyed := ⟨fun k => k⟩

/-! ## `size_t` -/

/-- Number of values of `size_t` (64-bit unsigned). -/
def SIZE_MOD : Nat := 2 ^ 64

/-- Decrement of a `size_t` (`i--`, `_size - 1`): wraps from `0` to `2 ^ 64 - 1`. -/
def decr (i : Nat) : Nat := (i + SIZE_MOD - 1) % SIZE_MOD

/-- Increment of a `size_t` (`_size++`). -/
def incr (i : Nat) : Nat := (i + 1) % SIZE_MOD

/-! ## Failures -/

/-- Ways in which a call does not hand back a value: the two exception classes
declared in `minimumheap.h`, and a subscript outside the backing vector, for
which C++ defines no result. -/
inductive Failure where
  | MinimumHeapUnderflowException
  | MinimumHeapIndexOutOfBoundsException
  | vectorOutOfRange
deriving DecidableEq, Repr

-- Outcomes of calls are compared by evaluation in the worked examples.
deriving instance DecidableEq for Except

/-! ## The container -/

/-- Private data of `MinimumHeap<Comparable>`. -/
structure MinimumHeap (α : Type) where
  /-- Backing vector. -/
  _elements : List α
  /-- Number of logically present elements. -/
  _size : Nat
deriving DecidableEq, Repr

namespace MinimumHeap

variable {α : Type}

/-- Subscript read `v[i]` on the backing vector.  Every read made by the
mutators below is inside the vector when `_size ≤ _elements.size()`. -/
def rd [Inhabited α] (v : List α) (i : Nat) : α := v.getD i default

/-- Effect of `std::swap (v[i], v[j])`. -/
def swapAt [Inhabited α] (v : List α) (i j : Nat) : List α :=
  (v.set i (rd v j)).set j (rd v i)

/-- Effect of `std::vector::resize (n)`: cut to `n` elements, or pad with
value-initialised elements up to `n`. -/
def resize [Inhabited α] (v : List α) (n : Nat) : List α :=
  v.take n ++ List.replicate (n - v.length) default

/-- Index of the left child (minimumheap.tpp, `leftChild`). -/
def leftChild (index : Nat) : Nat := (2 * index + 1) % SIZE_MOD

/-- Index of the right child (minimumheap.tpp, `rightChild`). -/
def rightChild (index : Nat) : Nat := (2 * index + 2) % SIZE_MOD

/-- Index of the parent (minimumheap.tpp, `parent`): `(index - 1) / 2` on `size_t`. -/
def parent (index : Nat) : Nat := decr index / 2

section Ops

variable [LT α] [DecidableRel (fun a b : α => a < b)] [Inhabited α]

/-- First half of the body of `minimumHeapify (i)`: the value of the local
variable `smallest` when the test `smallest != i` is reached. -/
def smallest (h : MinimumHeap α) (i : Nat) : Nat :=
  let l := leftChild i
  let r := rightChild i
  let smallest := if l < h._size ∧ rd h._elements l < rd h._elements i then l else i
  if r < h._size ∧ rd h._elements r < rd h._elements smallest then r else smallest

/-- Recursive sift-down `minimumHeapify (i)` with a bound on the number of
nested calls. -/
def minimumHeapifyFuel : Nat → MinimumHeap α → Nat → Option (MinimumHeap α)
  | 0, _, _ => none
  | fuel + 1, h, i =>
    let smallest := smallest h i
    if smallest ≠ i then
      minimumHeapifyFuel fuel { h with _elements := swapAt h._elements i smallest } smallest
    else
      some h

/-- Sift-down `minimumHeapify (i)`: each nested call moves to a child index, so
no more than `_size + 1` calls are needed. -/
def minimumHeapify (h : MinimumHeap α) (i : Nat) : Option (MinimumHeap α) :=
  minimumHeapifyFuel (h._size + 1) h i

/-- The `for` loop of `makeMinHeap`, entered with loop variable `i`. -/
def makeMinHeapLoop : Nat → MinimumHeap α → Nat → Option (MinimumHeap α)
  | 0, _, _ => none
  | fuel + 1, h, i =>
    if i < h._size then
      (minimumHeapify h i).bind fun h1 => makeMinHeapLoop fuel h1 (decr i)
    else
      some h

/-- Bulk heapify `makeMinHeap ()`. -/
def makeMinHeap (h : MinimumHeap α) : Option (MinimumHeap α) :=
  makeMinHeapLoop (h._size + 1) h (parent (decr h._size))

/-- The `for` loop of `makeMinHeap` once more, with a record of the indices at
which `minimumHeapify` is called, in the order of the calls. -/
def makeMinHeapLoopTrace : Nat → MinimumHeap α → Nat → Option (List Nat × MinimumHeap α)
  | 0, _, _ => none
  | fuel + 1, h, i =>
    if i < h._size then
      (minimumHeapify h i).bind fun h1 =>
        (makeMinHeapLoopTrace fuel h1 (decr i)).map fun r => (i :: r.1, r.2)
    else
      some ([], h)

/-- Bulk heapify `makeMinHeap ()` with the record of its `minimumHeapify` calls. -/
def makeMinHeapTrace (h : MinimumHeap α) : Option (List Nat × MinimumHeap α) :=
  makeMinHeapLoopTrace (h._size + 1) h (parent (decr h._size))

/-- Constructor `MinimumHeap (size_t capacity)`. -/
def mk_capacity (capacity : Nat) : MinimumHeap α :=
  { _elements := List.replicate capacity default, _size := 0 }

/-- Default constructor call `MinimumHeap ()`: capacity 2. -/
def mk_default : MinimumHeap α := mk_capacity 2

/-- Constructor `MinimumHeap (const std::vector&)`: `_elements` is a copy of
`vec`, and `_size` receives `_elements.size ()`, a `size_t`. -/
def mk_vector_copy (vec : List α) : Option (MinimumHeap α) :=
  makeMinHeap { _elements := vec, _size := vec.length % SIZE_MOD }

/-- Constructor `MinimumHeap (std::vector&&)`: `_elements` takes over the
contents of `vec`. -/
def mk_vector_move (vec : List α) : Option (MinimumHeap α) :=
  makeMinHeap { _elements := vec, _size := vec.length % SIZE_MOD }

/-- Query `size ()`. -/
def size (h : MinimumHeap α) : Nat := h._size

/-- Query `empty ()`. -/
def empty (h : MinimumHeap α) : Bool := h._size == 0

/-- Mutator `clear ()`. -/
def clear (_h : MinimumHeap α) : MinimumHeap α :=
  { _elements := [], _size := 0 }

/-- Checked subscript used by the const accessors. -/
def subscript (v : List α) (i : Nat) : Except Failure α :=
  match v[i]? with
  | some x => .ok x
  | none => .error .vectorOutOfRange

/-- Accessor `top ()`: the outcome of the call and the heap after it. -/
def top (h : MinimumHeap α) : Except Failure α × MinimumHeap α :=
  if h.empty then (.error .MinimumHeapUnderflowException, h)
  else (subscript h._elements 0, h)

/-- Accessor `at (index)`: the outcome of the call and the heap after it. -/
def atIndex (h : MinimumHeap α) (index : Nat) : Except Failure α × MinimumHeap α :=
  if index > h._size then (.error .MinimumHeapIndexOutOfBoundsException, h)
  else (subscript h._elements index, h)

/-- Accessor `operator[] (index)`. -/
def index (h : MinimumHeap α) (index : Nat) : Except Failure α × MinimumHeap α :=
  atIndex h index

/-- The `for` loop of `insert`, entered with loop variable `i`. -/
def siftUpFuel : Nat → List α → Nat → Option (List α)
  | 0, _, _ => none
  | fuel + 1, v, i =>
    if 0 < i ∧ rd v i < rd v (parent i) then
      siftUpFuel fuel (swapAt v i (parent i)) (parent i)
    else
      some v

/-- Mutator `insert (Comparable&& obj)`; `insert (const Comparable&)` copies its
argument and forwards to it. -/
def insert (h : MinimumHeap α) (obj : α) : Option (MinimumHeap α) :=
  let elements :=
    if h._size = h._elements.length then
      resize h._elements (if h._size ≠ 0 then (h._size * 2) % SIZE_MOD else 2)
    else h._elements
  let elements := elements.set h._size obj
  (siftUpFuel (h._size + 1) elements h._size).map fun v =>
    { _elements := v, _size := incr h._size }

/-- The backing vector as the `if` block at the head of `insert` leaves it,
before the new element is placed at index `_size`. -/
def grownElements (h : MinimumHeap α) : List α :=
  if h._size = h._elements.length then
    resize h._elements (if h._size ≠ 0 then (h._size * 2) % SIZE_MOD else 2)
  else h._elements

variable [MovedFrom α]

/-- Mutator `Comparable pop ()`: the outcome of the call and the heap after it. -/
def pop (h : MinimumHeap α) : Option (Except Failure α × MinimumHeap α) :=
  if h.empty then some (.error .MinimumHeapUnderflowException, h)
  else
    let min := rd h._elements 0
    let elements := h._elements.set 0 (movedFrom (rd h._elements 0))
    let size := decr h._size
    if size > 0 then
      let last := rd elements size
      let elements := (elements.set 0 last).set size (movedFrom last)
      (minimumHeapify { _elements := elements, _size := size } 0).map fun h1 => (.ok min, h1)
    else
      some (.ok min, { _elements := elements, _size := size })

/-- Mutator `void pop (Comparable& element)`: the outcome of the call, the
caller's variable after it, and the heap after it. -/
def popInto (h : MinimumHeap α) (element : α) :
    Option (Except Failure Unit × α × MinimumHeap α) :=
  if h.empty then some (.error .MinimumHeapUnderflowException, element, h)
  else
    let element := rd h._elements 0
    let elements := h._elements.set 0 (movedFrom (rd h._elements 0))
    let size := decr h._size
    if size > 0 then
      let last := rd elements size
      let elements := (elements.set 0 last).set size (movedFrom last)
      (minimumHeapify { _elements := elements, _size := size } 0).map fun h1 =>
        (.ok (), element, h1)
    else
      some (.ok (), element, { _elements := elements, _size := size })

/-- Heap left by the statements that the two `pop` forms have in common after
the emptiness test (move the root out, decrement `_size`, move the last element
to the root, sift down); used to reason about both forms at once. -/
def popRoot (h : MinimumHeap α) : Option (MinimumHeap α) :=
  let elements := h._elements.set 0 (movedFrom (rd h._elements 0))
  let size := decr h._size
  if size > 0 then
    let last := rd elements size
    let elements := (elements.set 0 last).set size (movedFrom last)
    minimumHeapify { _elements := elements, _size := size } 0
  else
    some { _elements := elements, _size := size }

/-! ### Text output -/

/-- The `for` loop of `output`, entered with loop variable `i` and with `out`
the text written to the stream so far. -/
def outputLoop [Streamed α] : Nat → MinimumHeap α → Nat → String → Option String
  | 0, _, _, _ => none
  | fuel + 1, h, i, out =>
    if i < h._size then
      let out := if i > 0 then out ++ ", " else out
      outputLoop fuel h (incr i) (out ++ Streamed.put (rd h._elements i))
    else
      some out

/-- Member `output (std::ostream& out) const`: the text of the stream after the
call, given its text `out` before, and the heap after the call. -/
def output [Streamed α] (h : MinimumHeap α) (out : String) : Option (String × MinimumHeap α) :=
  (outputLoop (h._size + 1) h 0 (out ++ "MinimumHeap [")).map fun text => (text ++ "]", h)

/-- Free function `operator<< (std::ostream& out, const MinimumHeap& h)`. -/
def operator_lshift [Streamed α] (out : String) (h : MinimumHeap α) :
    Option (String × MinimumHeap α) :=
  output h out

/-- White space as seen by formatted input in the default locale: space, tab,
line feed, vertical tab, form feed, carriage return. -/
def isspace (c : Char) : Bool :=
  c == ' ' || c == Char.ofNat 9 || c == Char.ofNat 10 || c == Char.ofNat 11 ||
    c == Char.ofNat 12 || c == Char.ofNat 13

/-- Effect of `ss >> str` on an empty `std::string str`, for a stream holding
the text `ss`: leading white space is skipped, then characters are taken up to
the next white space or the end of the text. -/
def extractWord (ss : String) : String :=
  String.mk ((ss.toList.dropWhile isspace).takeWhile fun c => !isspace c)

/-- Member `to_string ()`: the string returned and the heap after the call. -/
def to_string [Streamed α] (h : MinimumHeap α) : Option (String × MinimumHeap α) :=
  (output h "").map fun r => (extractWord r.1, r.2)

/-! ### Callers -/

/-- Constructor calls that build a heap. -/
inductive Ctor (α : Type) where
  | capacity (capacity : Nat)
  | copyVector (vec : List α)
  | moveVector (vec : List α)

/-- Number of elements a constructor call puts into the heap. -/
def Ctor.count : Ctor α → Nat
  | .capacity _ => 0
  | .copyVector vec => vec.length
  | .moveVector vec => vec.length

/-- Heap built by a constructor call. -/
def construct : Ctor α → Option (MinimumHeap α)
  | .capacity c => some (mk_capacity c)
  | .copyVector vec => mk_vector_copy vec
  | .moveVector vec => mk_vector_move vec

/-- Calls of the mutating member functions.  `popInto` is `pop (Comparable&)`
and carries the value of the caller's variable. -/
inductive Call (α : Type) where
  | insert (element : α)
  | pop
  | popInto (element : α)
  | clear

/-- Heap after one mutating call; a call that throws leaves the heap to the
caller as it is at the `throw`. -/
def applyCall (h : MinimumHeap α) : Call α → Option (MinimumHeap α)
  | .insert element => insert h element
  | .pop => (pop h).map fun r => r.2
  | .popInto element => (popInto h element).map fun r => r.2.2
  | .clear => some (clear h)

/-- Heap after a sequence of mutating calls. -/
def runCalls (h : MinimumHeap α) : List (Call α) → Option (MinimumHeap α)
  | [] => some h
  | c :: cs => (applyCall h c).bind fun h1 => runCalls h1 cs

/-- The loop `for (...) heap.insert (x)` of the tests in main.cpp, over the
values `xs` in order. -/
def insertAll (h : MinimumHeap α) : List α → Option (MinimumHeap α)
  | [] => some h
  | x :: xs => (insert h x).bind fun h1 => insertAll h1 xs

/-- The loop `while ( !heap.empty() ) cout << heap.pop()` of the tests in
main.cpp: the values written, in order, and the heap when the loop is left.  An
exception thrown by `pop` leaves the loop. -/
def drainFuel : Nat → MinimumHeap α → Option (Except Failure (List α) × MinimumHeap α)
  | 0, _ => none
  | fuel + 1, h =>
    if !h.empty then
      (pop h).bind fun r =>
        match r.1 with
        | .error e => some (.error e, r.2)
        | .ok x => (drainFuel fuel r.2).map fun d => (d.1.map fun out => x :: out, d.2)
    else
      some (.ok [], h)

/-- The drain loop: one turn per logically present element and the final test. -/
def drain (h : MinimumHeap α) : Option (Except Failure (List α) × MinimumHeap α) :=
  drainFuel (h._size + 1) h

/-- A caller making `n` calls of `pop ()` in a row and recording the outcome of
each; the caller goes on after a throw. -/
def popN : Nat → MinimumHeap α → Option (List (Except Failure α) × MinimumHeap α)
  | 0, h => some ([], h)
  | n + 1, h => (pop h).bind fun r => (popN n r.2).map fun rs => (r.1 :: rs.1, rs.2)

/-- Calls a client makes on a heap: `insert`, `pop ()`, `top ()`, `size ()`,
`empty ()`, `output` on a stream holding `out`, and `at (index)`. -/
inductive Op (α : Type) where
  | insert (element : α)
  | pop
  | top
  | size
  | empty
  | output (out : String)
  | atIndex (index : Nat)

/-- What a call hands back to the client: nothing (a `void` function returned),
a value or an exception, a count, a truth value, or the text of the stream. -/
inductive Reply (α : Type) where
  | done
  | value (r : Except Failure α)
  | count (n : Nat)
  | flag (b : Bool)
  | text (s : String)
deriving DecidableEq

/-- One client call: what it hands back and the heap after it. -/
def applyOp [Streamed α] (h : MinimumHeap α) : Op α → Option (Reply α × MinimumHeap α)
  | .insert element => (insert h element).map fun h1 => (.done, h1)
  | .pop => (pop h).map fun r => (.value r.1, r.2)
  | .top => some (.value (top h).1, (top h).2)
  | .size => some (.count (size h), h)
  | .empty => some (.flag (empty h), h)
  | .output out => (output h out).map fun r => (.text r.1, r.2)
  | .atIndex index => some (.value (atIndex h index).1, (atIndex h index).2)

/-- A sequence of client calls: what each hands back, in order, and the heap
after the last. -/
def runOps [Streamed α] (h : MinimumHeap α) :
    List (Op α) → Option (List (Reply α) × MinimumHeap α)
  | [] => some ([], h)
  | op :: ops =>
    (applyOp h op).bind fun r => (runOps r.2 ops).map fun rs => (r.1 :: rs.1, rs.2)

/-- Whether every `at (index)` of the sequence is made with `index < size ()`
at the time of the call. -/
def atBelowSize [Streamed α] (h : MinimumHeap α) : List (Op α) → Bool
  | [] => true
  | op :: ops =>
    (match op with
      | .atIndex index => decide (index < h._size)
      | _ => true) &&
    (match applyOp h op with
      | some r => atBelowSize r.2 ops
      | none => true)

end Ops

/-! ## Vocabulary of the specification -/

/-- Two heaps agree on what is logically present: the same `_size` and the same
element at every index below it. -/
def Agree [Inhabited α] (h1 h2 : MinimumHeap α) : Prop :=
  h1._size = h2._size ∧ ∀ k, k < h1._size → rd h1._elements k = rd h2._elements k

instance [Inhabited α] [DecidableEq α] (h1 h2 : MinimumHeap α) : Decidable (Agree h1 h2) := by
  unfold Agree; infer_instance

/-- Logically present elements: positions `0 .. _size - 1` of the backing vector. -/
def contents (h : MinimumHeap α) : List α := h._elements.take h._size

/-- Representation invariant of the class: `_size` does not exceed the length
of the backing vector. -/
def Wf (h : MinimumHeap α) : Prop := h._size ≤ h._elements.length

instance (h : MinimumHeap α) : Decidable (Wf h) := by unfold Wf; infer_instance

/-- Heap-order invariant: each logically present element is `≤` each of its
logically present children. -/
def HeapOrdered [LinearOrder α] [Inhabited α] (h : MinimumHeap α) : Prop :=
  ∀ i, i < h._size → ∀ c, c < h._size → (c = 2 * i + 1 ∨ c = 2 * i + 2) →
    rd h._elements i ≤ rd h._elements c

instance [LinearOrder α] [Inhabited α] (h : MinimumHeap α) : Decidable (HeapOrdered h) := by
  unfold HeapOrdered; infer_instance

/-- Positions of the subtree rooted at `i`: `i` itself, and the children
`2 k + 1` and `2 k + 2` of every position `k` of the subtree. -/
inductive InSubtree (i : Nat) : Nat → Prop where
  | root : InSubtree i i
  | left (k : Nat) : InSubtree i k → InSubtree i (2 * k + 1)
  | right (k : Nat) : InSubtree i k → InSubtree i (2 * k + 2)

/-- Order between child and parent, read from the child: every position `j`
below `n` whose parent `(j - 1) / 2` is at or after `lo` is `≥` its parent. -/
def UpFrom [LinearOrder α] [Inhabited α] (lo : Nat) (v : List α) (n : Nat) : Prop :=
  ∀ j, 0 < j → j < n → lo ≤ (j - 1) / 2 → rd v ((j - 1) / 2) ≤ rd v j

/-- The same order with one node `i` exempted as a child: the state in which the
sift-up loop is at `i`.  The children of `i` are still `≥` the parent of `i`. -/
def UpHole [LinearOrder α] [Inhabited α] (v : List α) (n i : Nat) : Prop :=
  (∀ j, 0 < j → j < n → j ≠ i → rd v ((j - 1) / 2) ≤ rd v j) ∧
  (∀ j, 0 < j → j < n → (j - 1) / 2 = i → 0 < i → rd v ((i - 1) / 2) ≤ rd v j)

/-- The same order with one node `i` exempted as a parent: the state in which a
sift-down at `i` is entered.  The children of `i` are still `≥` the parent
of `i`. -/
def DownHole [LinearOrder α] [Inhabited α] (lo : Nat) (v : List α) (n i : Nat) : Prop :=
  (∀ j, 0 < j → j < n → lo ≤ (j - 1) / 2 → (j - 1) / 2 ≠ i → rd v ((j - 1) / 2) ≤ rd v j) ∧
  (∀ j, 0 < j → j < n → (j - 1) / 2 = i → 0 < i → lo ≤ (i - 1) / 2 →
    rd v ((i - 1) / 2) ≤ rd v j)

end MinimumHeap


/-! ## Vectors as lists -/

namespace MinimumHeap

section Vec

variable {α : Type} [Inhabited α]

theorem rd_eq_getElem (v : List α) (i : Nat) (h : i < v.length) : rd v i = v[i] := by
  simp [rd, List.getD_eq_getElem?_getD, List.getElem?_eq_getElem h]

theorem rd_set_self (v : List α) (i : Nat) (a : α) (h : i < v.length) :
    rd (v.set i a) i = a := by
  simp [rd, List.getD_eq_getElem?_getD, List.getElem?_set_self h]

theorem rd_set_ne (v : List α) (i k : Nat) (a : α) (h : i ≠ k) :
    rd (v.set i a) k = rd v k := by
  simp [rd, List.getD_eq_getElem?_getD, List.getElem?_set_ne h]

theorem length_swapAt (v : List α) (i j : Nat) : (swapAt v i j).length = v.length := by
  simp [swapAt]

theorem rd_swapAt_left (v : List α) (i j : Nat) (hi : i < v.length) :
    rd (swapAt v i j) i = rd v j := by
  unfold swapAt
  by_cases hij : j = i
  · subst hij
    rw [rd_set_self _ _ _ (by simpa using hi)]
  · rw [rd_set_ne _ _ _ _ hij, rd_set_self _ _ _ hi]

theorem rd_swapAt_right (v : List α) (i j : Nat) (hj : j < v.length) :
    rd (swapAt v i j) j = rd v i := by
  unfold swapAt
  rw [rd_set_self _ _ _ (by simpa using hj)]

theorem rd_swapAt_ne (v : List α) (i j k : Nat) (hi : k ≠ i) (hj : k ≠ j) :
    rd (swapAt v i j) k = rd v k := by
  unfold swapAt
  rw [rd_set_ne _ _ _ _ (Ne.symm hj), rd_set_ne _ _ _ _ (Ne.symm hi)]

theorem rd_take (v : List α) (n i : Nat) (h : i < n) : rd (v.take n) i = rd v i := by
  simp [rd, List.getD_eq_getElem?_getD, List.getElem?_take, h]

theorem swapAt_perm [DecidableEq α] (v : List α) (i j : Nat) (hi : i < v.length)
    (hj : j < v.length) : (swapAt v i j).Perm v := by
  rw [List.perm_iff_count]
  intro a
  unfold swapAt
  rw [List.count_set _ _ _ _ (by simpa using hj)]
  rw [List.count_set _ _ _ _ hi]
  rw [rd_eq_getElem v i hi, rd_eq_getElem v j hj]
  have h1 : (if v[i] == a then 1 else 0) ≤ v.count a := by
    split
    · rename_i h
      simp only [beq_iff_eq] at h
      rw [← h]
      exact List.count_pos_iff.mpr (List.getElem_mem hi)
    · omega
  have hj1 : j < (v.set i v[j]).length := by simpa using hj
  have h2 : (v.set i v[j])[j] = v[j] := by
    by_cases hij : i = j
    · subst hij
      simp
    · rw [List.getElem_set_ne hij]
  rw [h2]
  generalize (if v[i] == a then 1 else 0) = x at h1 ⊢
  generalize (if v[j] == a then 1 else 0) = y
  omega

theorem take_swapAt (v : List α) (i j n : Nat) (hi : i < n) (hj : j < n) :
    (swapAt v i j).take n = swapAt (v.take n) i j := by
  unfold swapAt
  rw [rd_take v n i hi, rd_take v n j hj, List.set_take, List.set_take]

theorem take_swapAt_perm [DecidableEq α] (v : List α) (i j n : Nat) (hi : i < n) (hj : j < n)
    (hn : n ≤ v.length) : ((swapAt v i j).take n).Perm (v.take n) := by
  rw [take_swapAt v i j n hi hj]
  apply swapAt_perm
  · rw [List.length_take]; omega
  · rw [List.length_take]; omega

theorem mem_take_iff_rd (v : List α) (n : Nat) (hn : n ≤ v.length) (y : α) :
    y ∈ v.take n ↔ ∃ j, j < n ∧ rd v j = y := by
  rw [List.mem_iff_getElem]
  constructor
  · rintro ⟨j, hj, he⟩
    have hjn : j < n := by
      rw [List.length_take] at hj
      omega
    refine ⟨j, hjn, ?_⟩
    rw [← rd_take v n j hjn, rd_eq_getElem _ _ hj, he]
  · rintro ⟨j, hjn, he⟩
    have hj : j < (v.take n).length := by
      rw [List.length_take]
      omega
    refine ⟨j, hj, ?_⟩
    rw [← rd_eq_getElem _ _ hj, rd_take v n j hjn, he]

theorem length_resize (v : List α) (n : Nat) : (resize v n).length = n := by
  unfold resize
  rw [List.length_append, List.length_take, List.length_replicate]
  omega

theorem take_resize (v : List α) (n k : Nat) (hk : k ≤ v.length) (hkn : k ≤ n) :
    (resize v n).take k = v.take k := by
  unfold resize
  rw [List.take_append_of_le_length (by rw [List.length_take]; omega), List.take_take,
    Nat.min_eq_left hkn]

theorem rd_eq_of_take_eq (v w : List α) (n : Nat) (ht : v.take n = w.take n) :
    ∀ k, k < n → rd v k = rd w k := by
  intro k hk
  rw [← rd_take v n k hk, ht, rd_take w n k hk]

omit [Inhabited α] in
theorem take_succ_set (v : List α) (n : Nat) (x : α) (hn : n < v.length) :
    (v.set n x).take (n + 1) = v.take n ++ [x] := by
  rw [List.take_succ, List.set_take,
    List.set_eq_of_length_le (by rw [List.length_take]; omega), List.getElem?_set_self hn]
  rfl

theorem take_one_eq_rd (v : List α) (hl : 1 ≤ v.length) : v.take 1 = [rd v 0] := by
  cases v with
  | nil => simp at hl
  | cons a t => simp [rd]

theorem root_last_perm (v : List α) (n : Nat) (hn : 1 ≤ n) (hl : n + 1 ≤ v.length) :
    (rd v 0 :: (v.set 0 (rd v n)).take n).Perm (v.take (n + 1)) := by
  cases v with
  | nil => simp at hl
  | cons a t =>
    obtain ⟨m, rfl⟩ : ∃ m, n = m + 1 := ⟨n - 1, by omega⟩
    simp only [List.length_cons] at hl
    have hm : m < t.length := by omega
    have h0 : rd (a :: t) 0 = a := by simp [rd]
    have h1 : rd (a :: t) (m + 1) = t[m] := by
      rw [rd_eq_getElem _ _ (by simp only [List.length_cons]; omega)]
      simp
    rw [h0, h1, List.set_cons_zero, List.take_succ_cons, List.take_succ_cons,
      List.take_succ (l := t), List.getElem?_eq_getElem hm]
    apply List.Perm.cons
    exact (List.perm_append_singleton _ _).symm

end Vec

end MinimumHeap

/-! ## Index arithmetic on `size_t` -/

namespace MinimumHeap

theorem SIZE_MOD_eq : SIZE_MOD = 18446744073709551616 := by norm_num [SIZE_MOD]

theorem leftChild_eq (i : Nat) (h : i < 2 ^ 63) : leftChild i = 2 * i + 1 := by
  unfold leftChild
  rw [SIZE_MOD_eq]
  omega

theorem rightChild_eq (i : Nat) (h : i + 1 < 2 ^ 63) : rightChild i = 2 * i + 2 := by
  unfold rightChild
  rw [SIZE_MOD_eq]
  omega

theorem decr_eq (i : Nat) (h0 : 0 < i) (h : i ≤ 2 ^ 64) : decr i = i - 1 := by
  unfold decr
  rw [SIZE_MOD_eq]
  omega

theorem decr_zero : decr 0 = 2 ^ 64 - 1 := by
  unfold decr
  rw [SIZE_MOD_eq]
  omega

theorem incr_eq (i : Nat) (h : i + 1 < 2 ^ 64) : incr i = i + 1 := by
  unfold incr
  rw [SIZE_MOD_eq]
  omega

theorem parent_eq (i : Nat) (h0 : 0 < i) (h : i ≤ 2 ^ 64) : parent i = (i - 1) / 2 := by
  unfold parent
  rw [decr_eq i h0 h]

end MinimumHeap

/-! ## Sift-down -/

namespace MinimumHeap

section SiftDown

variable {α : Type} [LinearOrder α] [Inhabited α]

theorem smallest_spec_nowrap (h : MinimumHeap α) (i : Nat) (hi : 2 * i + 2 < 2 ^ 64) :
    (smallest h i = i ∨
      ((smallest h i = 2 * i + 1 ∨ smallest h i = 2 * i + 2) ∧ smallest h i < h._size ∧
        rd h._elements (smallest h i) < rd h._elements i)) ∧
    ∀ c, c < h._size → (c = 2 * i + 1 ∨ c = 2 * i + 2) →
      rd h._elements (smallest h i) ≤ rd h._elements c := by
  unfold smallest
  rw [leftChild_eq i (by omega), rightChild_eq i (by omega)]
  simp only []
  by_cases h1 : 2 * i + 1 < h._size ∧ rd h._elements (2 * i + 1) < rd h._elements i
  · rw [if_pos h1]
    by_cases h2 : 2 * i + 2 < h._size ∧ rd h._elements (2 * i + 2) < rd h._elements (2 * i + 1)
    · rw [if_pos h2]
      refine ⟨Or.inr ⟨Or.inr rfl, h2.1, lt_trans h2.2 h1.2⟩, ?_⟩
      intro c _ hc
      rcases hc with rfl | rfl
      · exact le_of_lt h2.2
      · exact le_refl _
    · rw [if_neg h2]
      refine ⟨Or.inr ⟨Or.inl rfl, h1.1, h1.2⟩, ?_⟩
      intro c hcn hc
      rcases hc with rfl | rfl
      · exact le_refl _
      · exact not_lt.mp fun hlt => h2 ⟨hcn, hlt⟩
  · rw [if_neg h1]
    by_cases h2 : 2 * i + 2 < h._size ∧ rd h._elements (2 * i + 2) < rd h._elements i
    · rw [if_pos h2]
      refine ⟨Or.inr ⟨Or.inr rfl, h2.1, h2.2⟩, ?_⟩
      intro c hcn hc
      rcases hc with rfl | rfl
      · exact le_trans (le_of_lt h2.2) (not_lt.mp fun hlt => h1 ⟨hcn, hlt⟩)
      · exact le_refl _
    · rw [if_neg h2]
      refine ⟨Or.inl rfl, ?_⟩
      intro c hcn hc
      rcases hc with rfl | rfl
      · exact not_lt.mp fun hlt => h1 ⟨hcn, hlt⟩
      · exact not_lt.mp fun hlt => h2 ⟨hcn, hlt⟩

theorem smallest_spec (h : MinimumHeap α) (i : Nat) (hi : i < h._size)
    (hs : h._size < 2 ^ 63) :
    (smallest h i = i ∨
      ((smallest h i = 2 * i + 1 ∨ smallest h i = 2 * i + 2) ∧ smallest h i < h._size ∧
        rd h._elements (smallest h i) < rd h._elements i)) ∧
    ∀ c, c < h._size → (c = 2 * i + 1 ∨ c = 2 * i + 2) →
      rd h._elements (smallest h i) ≤ rd h._elements c :=
  smallest_spec_nowrap h i (by omega)

theorem minimumHeapifyFuel_spec (lo : Nat) :
    ∀ (fuel : Nat) (h : MinimumHeap α) (i : Nat), i < h._size → h._size < 2 ^ 63 → Wf h →
      h._size - i ≤ fuel → lo ≤ i → DownHole lo h._elements h._size i →
      ∃ h1, minimumHeapifyFuel fuel h i = some h1 ∧ h1._size = h._size ∧
        h1._elements.length = h._elements.length ∧
        UpFrom lo h1._elements h._size ∧
        (contents h1).Perm (contents h) ∧
        ∀ k, (k < i ∨ h._size ≤ k) → rd h1._elements k = rd h._elements k := by
  intro fuel
  induction fuel with
  | zero =>
    intro h i hi _ _ hf
    omega
  | succ fuel ih =>
    intro h i hi hs hwf hf hlo hD
    obtain ⟨hA, hB⟩ := hD
    obtain ⟨hsm, hch⟩ := smallest_spec h i hi hs
    unfold Wf at hwf
    simp only [minimumHeapifyFuel]
    by_cases hsi : smallest h i = i
    · rw [if_neg (by simpa using hsi)]
      refine ⟨h, rfl, rfl, rfl, ?_, List.Perm.refl _, fun _ _ => rfl⟩
      intro j hj0 hjn hjlo
      by_cases hp : (j - 1) / 2 = i
      · rw [hp]
        have := hch j hjn (by omega)
        rwa [hsi] at this
      · exact hA j hj0 hjn hjlo hp
    · rw [if_pos hsi]
      rcases hsm with hsm | ⟨hsc, hsn, hlt⟩
      · exact absurd hsm hsi
      generalize smallest h i = s at hsi hsc hsn hlt hch
      have hsgt : i < s := by omega
      have hpar : (s - 1) / 2 = i := by omega
      have hil : i < h._elements.length := by omega
      have hsl : s < h._elements.length := by omega
      have hD1 : DownHole lo (swapAt h._elements i s) h._size s := by
        constructor
        · intro j hj0 hjn hjlo hjp
          by_cases hp : (j - 1) / 2 = i
          · rw [hp, rd_swapAt_left _ _ _ hil]
            by_cases hjs : j = s
            · rw [hjs, rd_swapAt_right _ _ _ hsl]
              exact le_of_lt hlt
            · rw [rd_swapAt_ne _ _ _ _ (by omega) hjs]
              exact hch j hjn (by omega)
          · rw [rd_swapAt_ne _ _ _ _ hp hjp]
            by_cases hji : j = i
            · rw [hji, rd_swapAt_left _ _ _ hil]
              exact hB s (by omega) hsn hpar (by omega) (by rw [← hji]; exact hjlo)
            · rw [rd_swapAt_ne _ _ _ _ hji (by omega)]
              exact hA j hj0 hjn hjlo hp
        · intro j hj0 hjn hjp hs0 _
          rw [hpar, rd_swapAt_left _ _ _ hil, rd_swapAt_ne _ _ _ _ (by omega) (by omega)]
          have := hA j hj0 hjn (by omega) (by omega)
          rwa [hjp] at this
      obtain ⟨h1, he, hsz, hlen, hup, hperm, hfix⟩ :=
        ih { h with _elements := swapAt h._elements i s } s hsn hs
          (by unfold Wf; simp only [length_swapAt]; exact hwf) (by simp only; omega)
          (by omega) hD1
      refine ⟨h1, he, hsz, ?_, hup, ?_, ?_⟩
      · rw [hlen]; exact length_swapAt _ _ _
      · refine hperm.trans ?_
        exact take_swapAt_perm _ _ _ _ hi hsn hwf
      · intro k hk
        rw [hfix k (by simp only; omega)]
        exact rd_swapAt_ne _ _ _ _ (by omega) (by omega)

theorem minimumHeapifyFuel_total :
    ∀ (fuel : Nat) (h : MinimumHeap α) (i : Nat), i < h._size → h._size < 2 ^ 63 → Wf h →
      h._size - i ≤ fuel →
      ∃ h1, minimumHeapifyFuel fuel h i = some h1 ∧ h1._size = h._size ∧
        h1._elements.length = h._elements.length ∧
        (contents h1).Perm (contents h) ∧
        ∀ k, (k < i ∨ h._size ≤ k) → rd h1._elements k = rd h._elements k := by
  intro fuel
  induction fuel with
  | zero =>
    intro h i hi _ _ hf
    omega
  | succ fuel ih =>
    intro h i hi hs hwf hf
    obtain ⟨hsm, _⟩ := smallest_spec h i hi hs
    unfold Wf at hwf
    simp only [minimumHeapifyFuel]
    by_cases hsi : smallest h i = i
    · rw [if_neg (by simpa using hsi)]
      exact ⟨h, rfl, rfl, rfl, List.Perm.refl _, fun _ _ => rfl⟩
    · rw [if_pos hsi]
      rcases hsm with hsm | ⟨hsc, hsn, _⟩
      · exact absurd hsm hsi
      generalize smallest h i = s at hsi hsc hsn
      obtain ⟨h1, he, hsz, hlen, hperm, hfix⟩ :=
        ih { h with _elements := swapAt h._elements i s } s hsn hs
          (by unfold Wf; simp only [length_swapAt]; exact hwf) (by simp only; omega)
      refine ⟨h1, he, hsz, ?_, ?_, ?_⟩
      · rw [hlen]; exact length_swapAt _ _ _
      · exact hperm.trans (take_swapAt_perm _ _ _ _ hi hsn hwf)
      · intro k hk
        rw [hfix k (by simp only; omega)]
        exact rd_swapAt_ne _ _ _ _ (by omega) (by omega)

end SiftDown

end MinimumHeap

/-! ## Sift-up -/

namespace MinimumHeap

section SiftUp

variable {α : Type} [LinearOrder α] [Inhabited α]

theorem siftUpFuel_spec (n : Nat) (hn : n ≤ 2 ^ 64) :
    ∀ (fuel : Nat) (v : List α) (i : Nat), i < n → n ≤ v.length → i < fuel →
      UpHole v n i →
      ∃ v1, siftUpFuel fuel v i = some v1 ∧ v1.length = v.length ∧ UpFrom 0 v1 n ∧
        (v1.take n).Perm (v.take n) ∧ ∀ k, n ≤ k → rd v1 k = rd v k := by
  intro fuel
  induction fuel with
  | zero =>
    intro v i _ _ hf
    omega
  | succ fuel ih =>
    intro v i hi hlen hf hU
    obtain ⟨hA, hB⟩ := hU
    simp only [siftUpFuel]
    by_cases hc : 0 < i ∧ rd v i < rd v (parent i)
    · rw [if_pos hc]
      obtain ⟨hi0, hlt⟩ := hc
      rw [parent_eq i hi0 (by omega)] at hlt ⊢
      generalize hp : (i - 1) / 2 = p at hlt ⊢
      have hpi : p < i := by omega
      have hil : i < v.length := by omega
      have hpl : p < v.length := by omega
      have hU1 : UpHole (swapAt v i p) n p := by
        constructor
        · intro j hj0 hjn hjp
          by_cases hji : j = i
          · rw [hji, hp, rd_swapAt_left _ _ _ hil, rd_swapAt_right _ _ _ hpl]
            exact le_of_lt hlt
          · rw [rd_swapAt_ne _ _ _ _ hji hjp]
            by_cases hq : (j - 1) / 2 = i
            · rw [hq, rd_swapAt_left _ _ _ hil]
              have := hB j hj0 hjn hq hi0
              rwa [hp] at this
            · by_cases hq1 : (j - 1) / 2 = p
              · rw [hq1, rd_swapAt_right _ _ _ hpl]
                have := hA j hj0 hjn hji
                rw [hq1] at this
                exact le_trans (le_of_lt hlt) this
              · rw [rd_swapAt_ne _ _ _ _ hq hq1]
                exact hA j hj0 hjn hji
        · intro j hj0 hjn hq hp0
          rw [rd_swapAt_ne _ _ _ _ (by omega) (by omega)]
          have hg : rd v ((p - 1) / 2) ≤ rd v p := hA p hp0 (by omega) (by omega)
          by_cases hji : j = i
          · rw [hji, rd_swapAt_left _ _ _ hil]
            exact hg
          · rw [rd_swapAt_ne _ _ _ _ hji (by omega)]
            have := hA j hj0 hjn hji
            rw [hq] at this
            exact le_trans hg this
      obtain ⟨v1, he, hl1, hup, hperm, hfix⟩ :=
        ih (swapAt v i p) p (by omega) (by rw [length_swapAt]; exact hlen) (by omega) hU1
      refine ⟨v1, he, ?_, hup, ?_, ?_⟩
      · rw [hl1]; exact length_swapAt _ _ _
      · exact hperm.trans (take_swapAt_perm _ _ _ _ hi (by omega) hlen)
      · intro k hk
        rw [hfix k hk]
        exact rd_swapAt_ne _ _ _ _ (by omega) (by omega)
    · rw [if_neg hc]
      refine ⟨v, rfl, rfl, ?_, List.Perm.refl _, fun _ _ => rfl⟩
      intro j hj0 hjn _
      by_cases hji : j = i
      · subst hji
        rw [← parent_eq j hj0 (by omega)]
        exact not_lt.mp fun hlt => hc ⟨hj0, hlt⟩
      · exact hA j hj0 hjn hji

end SiftUp

end MinimumHeap

/-! ## From the loops to the operations -/

namespace MinimumHeap

section Bridge

variable {α : Type} [LinearOrder α] [Inhabited α]

theorem pop_eq [MovedFrom α] (h : MinimumHeap α) :
    pop h = if h.empty then some (.error .MinimumHeapUnderflowException, h)
      else (popRoot h).map fun h1 => (.ok (rd h._elements 0), h1) := by
  unfold pop popRoot
  split
  · rfl
  · simp only
    split <;> rfl

theorem popInto_eq [MovedFrom α] (h : MinimumHeap α) (element : α) :
    popInto h element = if h.empty then some (.error .MinimumHeapUnderflowException, element, h)
      else (popRoot h).map fun h1 => (.ok (), rd h._elements 0, h1) := by
  unfold popInto popRoot
  split
  · rfl
  · simp only
    split <;> rfl

theorem heapOrdered_iff_upFrom (h : MinimumHeap α) :
    HeapOrdered h ↔ UpFrom 0 h._elements h._size := by
  constructor
  · intro ho j hj0 hjn _
    exact ho ((j - 1) / 2) (by omega) j hjn (by omega)
  · intro hu i _ c hc hci
    have := hu c (by omega) hc (Nat.zero_le _)
    have hp : (c - 1) / 2 = i := by omega
    rwa [hp] at this

theorem root_le_of_upFrom (v : List α) (n : Nat) (hu : UpFrom 0 v n) :
    ∀ j, j < n → rd v 0 ≤ rd v j := by
  intro j
  induction j using Nat.strong_induction_on with
  | _ j ih =>
    intro hjn
    by_cases hj0 : j = 0
    · rw [hj0]
    · exact le_trans (ih ((j - 1) / 2) (by omega) (by omega))
        (hu j (by omega) hjn (Nat.zero_le _))

theorem insert_spec (h : MinimumHeap α) (x : α) (hwf : Wf h) (hs : h._size < 2 ^ 63)
    (ho : HeapOrdered h) :
    ∃ h1, insert h x = some h1 ∧ h1._size = h._size + 1 ∧ Wf h1 ∧ HeapOrdered h1 ∧
      (contents h1).Perm (x :: contents h) ∧
      h1._elements.length =
        (if h._size = h._elements.length then (if h._size ≠ 0 then h._size * 2 else 2)
         else h._elements.length) := by
  unfold Wf at hwf
  have hgrow : (if h._size ≠ 0 then (h._size * 2) % SIZE_MOD else 2) =
      (if h._size ≠ 0 then h._size * 2 else 2) := by
    split
    · rw [SIZE_MOD_eq]; omega
    · rfl
  obtain ⟨e1, he1, hlen1, htake1, hcap⟩ :
      ∃ e1, (if h._size = h._elements.length then
          resize h._elements (if h._size ≠ 0 then (h._size * 2) % SIZE_MOD else 2)
        else h._elements) = e1 ∧ h._size < e1.length ∧
        e1.take h._size = h._elements.take h._size ∧
        e1.length = (if h._size = h._elements.length then
          (if h._size ≠ 0 then h._size * 2 else 2) else h._elements.length) := by
    refine ⟨_, rfl, ?_, ?_, ?_⟩
    · split
      · rw [length_resize, hgrow]; split <;> omega
      · omega
    · split
      · apply take_resize _ _ _ hwf
        rw [hgrow]; split <;> omega
      · rfl
    · split
      · rw [length_resize, hgrow]
      · rfl
  have hrd1 : ∀ k, k < h._size → rd e1 k = rd h._elements k :=
    rd_eq_of_take_eq _ _ _ htake1
  have hU : UpHole (e1.set h._size x) (h._size + 1) h._size := by
    constructor
    · intro j hj0 hjn hjs
      rw [rd_set_ne _ _ _ _ (by omega), rd_set_ne _ _ _ _ (by omega),
        hrd1 _ (by omega), hrd1 _ (by omega)]
      exact ho ((j - 1) / 2) (by omega) j (by omega) (by omega)
    · intro j _ hjn hq
      omega
  obtain ⟨v1, hv1, hl1, hup, hperm, _⟩ :=
    siftUpFuel_spec (h._size + 1) (by omega) (h._size + 1) (e1.set h._size x) h._size
      (by omega) (by rw [List.length_set]; omega) (by omega) hU
  refine ⟨{ _elements := v1, _size := h._size + 1 }, ?_, rfl, ?_, ?_, ?_, ?_⟩
  · unfold insert
    simp only [he1, hv1, Option.map_some', incr_eq h._size (by omega)]
  · unfold Wf
    simp only [hl1, List.length_set]
    omega
  · rw [heapOrdered_iff_upFrom]
    exact hup
  · unfold contents
    simp only
    refine hperm.trans ?_
    rw [take_succ_set _ _ _ hlen1, htake1]
    exact List.perm_append_singleton _ _
  · simp only [hl1, List.length_set]
    exact hcap

theorem minimumHeapify_spec (lo : Nat) (h : MinimumHeap α) (i : Nat) (hi : i < h._size)
    (hs : h._size < 2 ^ 63) (hwf : Wf h) (hlo : lo ≤ i)
    (hD : DownHole lo h._elements h._size i) :
    ∃ h1, minimumHeapify h i = some h1 ∧ h1._size = h._size ∧
      h1._elements.length = h._elements.length ∧
      UpFrom lo h1._elements h._size ∧
      (contents h1).Perm (contents h) ∧
      ∀ k, (k < i ∨ h._size ≤ k) → rd h1._elements k = rd h._elements k :=
  minimumHeapifyFuel_spec lo (h._size + 1) h i hi hs hwf (by omega) hlo hD

theorem popRoot_spec [MovedFrom α] (h : MinimumHeap α) (hwf : Wf h) (h0 : 0 < h._size)
    (hs : h._size < 2 ^ 63) (ho : HeapOrdered h) :
    ∃ h1, popRoot h = some h1 ∧ h1._size + 1 = h._size ∧ Wf h1 ∧ HeapOrdered h1 ∧
      (rd h._elements 0 :: contents h1).Perm (contents h) ∧
      h1._elements.length = h._elements.length := by
  unfold Wf at hwf
  have hdecr : decr h._size = h._size - 1 := decr_eq _ h0 (by omega)
  unfold popRoot
  simp only [hdecr]
  by_cases h1 : h._size - 1 > 0
  · rw [if_pos h1]
    have hlast : rd (h._elements.set 0 (movedFrom (rd h._elements 0))) (h._size - 1) =
        rd h._elements (h._size - 1) := rd_set_ne _ _ _ _ (by omega)
    rw [hlast, List.set_set]
    generalize hlst : rd h._elements (h._size - 1) = last
    generalize he2 : (h._elements.set 0 last).set (h._size - 1) (movedFrom last) = e2
    have hlen2 : e2.length = h._elements.length := by
      rw [← he2]; simp
    have htake2 : e2.take (h._size - 1) = (h._elements.set 0 last).take (h._size - 1) := by
      rw [← he2, List.set_take (m := h._size - 1),
        List.set_eq_of_length_le (by rw [List.length_take]; omega)]
    have hrd2 : ∀ k, 0 < k → k < h._size - 1 → rd e2 k = rd h._elements k := by
      intro k hk0 hk
      rw [← he2, rd_set_ne _ _ _ _ (by omega), rd_set_ne _ _ _ _ (by omega)]
    have hD : DownHole 0 e2 (h._size - 1) 0 := by
      constructor
      · intro j hj0 hjn _ hq
        rw [hrd2 _ (by omega) (by omega), hrd2 _ (by omega) hjn]
        exact ho ((j - 1) / 2) (by omega) j (by omega) (by omega)
      · intro j _ _ _ h00
        omega
    obtain ⟨h2, hh2, hsz, hl2, hup, hperm, _⟩ :=
      minimumHeapify_spec 0 { _elements := e2, _size := h._size - 1 } 0 h1 (by simp only; omega)
        (by unfold Wf; simp only [hlen2]; omega) (le_refl _) hD
    simp only at hsz hl2 hup
    refine ⟨h2, hh2, by omega, ?_, ?_, ?_, by omega⟩
    · unfold Wf; omega
    · rw [heapOrdered_iff_upFrom, hsz]
      exact hup
    · have hp1 : (rd h._elements 0 :: contents h2).Perm
          (rd h._elements 0 :: (h._elements.set 0 last).take (h._size - 1)) := by
        apply List.Perm.cons
        refine hperm.trans ?_
        unfold contents
        simp only [htake2]
        exact List.Perm.refl _
      refine hp1.trans ?_
      have := root_last_perm h._elements (h._size - 1) (by omega) (by omega)
      rw [hlst] at this
      unfold contents
      have hsz1 : h._size - 1 + 1 = h._size := by omega
      rwa [hsz1] at this
  · rw [if_neg h1]
    have hsz1 : h._size = 1 := by omega
    refine ⟨_, rfl, by simp only; omega, ?_, ?_, ?_, by simp⟩
    · unfold Wf; simp only [List.length_set]; omega
    · intro i hi
      simp only at hi
      omega
    · unfold contents
      simp only [hsz1, Nat.sub_self, List.take_zero]
      rw [take_one_eq_rd _ (by omega)]

theorem makeMinHeapLoop_spec :
    ∀ (i fuel : Nat) (h : MinimumHeap α), i < h._size → h._size < 2 ^ 63 → Wf h →
      i + 2 ≤ fuel → UpFrom (i + 1) h._elements h._size →
      ∃ h1, makeMinHeapLoop fuel h i = some h1 ∧ h1._size = h._size ∧
        h1._elements.length = h._elements.length ∧ UpFrom 0 h1._elements h._size ∧
        (contents h1).Perm (contents h) ∧
        ∀ k, h._size ≤ k → rd h1._elements k = rd h._elements k := by
  intro i
  induction i with
  | zero =>
    intro fuel h hi hs hwf hf hu
    obtain ⟨f, rfl⟩ : ∃ f, fuel = f + 2 := ⟨fuel - 2, by omega⟩
    have hD : DownHole 0 h._elements h._size 0 := by
      constructor
      · intro j hj0 hjn _ hq
        exact hu j hj0 hjn (by omega)
      · intro j _ _ _ h00
        omega
    obtain ⟨h1, hh1, hsz, hl1, hup, hperm, hfix⟩ :=
      minimumHeapify_spec 0 h 0 hi hs hwf (le_refl _) hD
    refine ⟨h1, ?_, hsz, hl1, hup, hperm, fun k hk => hfix k (Or.inr hk)⟩
    simp only [makeMinHeapLoop, if_pos hi, hh1, Option.some_bind, decr_zero]
    rw [if_neg (by rw [hsz]; omega)]
  | succ i ih =>
    intro fuel h hi hs hwf hf hu
    obtain ⟨f, rfl⟩ : ∃ f, fuel = f + 1 := ⟨fuel - 1, by omega⟩
    have hD : DownHole (i + 1) h._elements h._size (i + 1) := by
      constructor
      · intro j hj0 hjn hlo hq
        exact hu j hj0 hjn (by omega)
      · intro j _ _ _ _ hlo
        omega
    obtain ⟨h1, hh1, hsz, hl1, hup, hperm, hfix⟩ :=
      minimumHeapify_spec (i + 1) h (i + 1) hi hs hwf (le_refl _) hD
    obtain ⟨h2, hh2, hsz2, hl2, hup2, hperm2, hfix2⟩ :=
      ih f h1 (by omega) (by omega) (by unfold Wf at hwf ⊢; omega) (by omega)
        (by rw [hsz]; exact hup)
    refine ⟨h2, ?_, by omega, by omega, by rw [← hsz]; exact hup2, hperm2.trans hperm, ?_⟩
    · simp only [makeMinHeapLoop, if_pos hi, hh1, Option.some_bind]
      rw [decr_eq (i + 1) (by omega) (by omega)]
      exact hh2
    · intro k hk
      rw [hfix2 k (by omega), hfix k (Or.inr hk)]

theorem makeMinHeap_spec (h : MinimumHeap α) (hs : h._size < 2 ^ 63) (hwf : Wf h) :
    ∃ h1, makeMinHeap h = some h1 ∧ h1._size = h._size ∧
      h1._elements.length = h._elements.length ∧ HeapOrdered h1 ∧
      (contents h1).Perm (contents h) := by
  unfold makeMinHeap
  by_cases h2 : 2 ≤ h._size
  · rw [decr_eq h._size (by omega) (by omega), parent_eq (h._size - 1) (by omega) (by omega)]
    obtain ⟨h1, hh1, hsz, hl1, hup, hperm, _⟩ :=
      makeMinHeapLoop_spec ((h._size - 1 - 1) / 2) (h._size + 1) h (by omega) hs hwf
        (by omega) (by
          intro j hj0 hjn hlo
          omega)
    refine ⟨h1, hh1, hsz, hl1, ?_, hperm⟩
    rw [heapOrdered_iff_upFrom, hsz]
    exact hup
  · refine ⟨h, ?_, rfl, rfl, ?_, List.Perm.refl _⟩
    · have hp : ¬ parent (decr h._size) < h._size := by
        have h01 : h._size = 0 ∨ h._size = 1 := by omega
        rcases h01 with h0 | h1
        · rw [h0]; omega
        · rw [h1]
          unfold parent decr
          rw [SIZE_MOD_eq]
          omega
      simp only [makeMinHeapLoop, if_neg hp]
    · intro i hi c hc hci
      omega

theorem mk_vector_copy_spec (vec : List α) (hl : vec.length < 2 ^ 63) :
    ∃ h, mk_vector_copy vec = some h ∧ h._size = vec.length ∧ h._elements.length = vec.length ∧
      HeapOrdered h ∧ (contents h).Perm vec := by
  have hmod : vec.length % SIZE_MOD = vec.length := by
    rw [SIZE_MOD_eq]; omega
  unfold mk_vector_copy
  rw [hmod]
  obtain ⟨h1, hh1, hsz, hl1, ho, hperm⟩ :=
    makeMinHeap_spec { _elements := vec, _size := vec.length } hl (by unfold Wf; simp)
  refine ⟨h1, hh1, hsz, hl1, ho, ?_⟩
  refine hperm.trans ?_
  unfold contents
  simp

theorem popRoot_total [MovedFrom α] (h : MinimumHeap α) (hwf : Wf h) (h0 : 0 < h._size)
    (hs : h._size < 2 ^ 63) :
    ∃ h1, popRoot h = some h1 ∧ h1._size + 1 = h._size ∧ Wf h1 := by
  unfold Wf at hwf
  have hdecr : decr h._size = h._size - 1 := decr_eq _ h0 (by omega)
  unfold popRoot
  simp only [hdecr]
  by_cases h1 : h._size - 1 > 0
  · rw [if_pos h1]
    generalize he2 : ((h._elements.set 0 (movedFrom (rd h._elements 0))).set 0
      (rd (h._elements.set 0 (movedFrom (rd h._elements 0))) (h._size - 1))).set (h._size - 1)
        (movedFrom (rd (h._elements.set 0 (movedFrom (rd h._elements 0))) (h._size - 1)))
      = e2
    have hlen2 : e2.length = h._elements.length := by
      rw [← he2]; simp
    obtain ⟨h2, hh2, hsz, hl2, _, _⟩ :=
      minimumHeapifyFuel_total (h._size - 1 + 1) { _elements := e2, _size := h._size - 1 } 0 h1
        (by simp only; omega) (by unfold Wf; simp only [hlen2]; omega) (by simp only; omega)
    simp only at hsz hl2
    refine ⟨h2, hh2, by omega, ?_⟩
    unfold Wf; omega
  · rw [if_neg h1]
    refine ⟨_, rfl, by simp only; omega, ?_⟩
    unfold Wf; simp only [List.length_set]; omega

theorem mk_vector_move_spec (vec : List α) (hl : vec.length < 2 ^ 63) :
    ∃ h, mk_vector_move vec = some h ∧ h._size = vec.length ∧ h._elements.length = vec.length ∧
      HeapOrdered h ∧ (contents h).Perm vec :=
  mk_vector_copy_spec vec hl

theorem applyCall_inv [MovedFrom α] (h : MinimumHeap α) (c : Call α) (hwf : Wf h)
    (hs : h._size < 2 ^ 63) (ho : HeapOrdered h) :
    ∃ h1, applyCall h c = some h1 ∧ Wf h1 ∧ HeapOrdered h1 ∧ h1._size ≤ h._size + 1 := by
  have hpop : ∃ h1, ((h._size = 0 ∧ h1 = h) ∨ (0 < h._size ∧ popRoot h = some h1)) ∧
      Wf h1 ∧ HeapOrdered h1 ∧ h1._size ≤ h._size + 1 := by
    by_cases h0 : h._size = 0
    · exact ⟨h, Or.inl ⟨h0, rfl⟩, hwf, ho, by omega⟩
    · obtain ⟨h1, hh1, hsz, hwf1, ho1, _⟩ := popRoot_spec h hwf (by omega) hs ho
      exact ⟨h1, Or.inr ⟨by omega, hh1⟩, hwf1, ho1, by omega⟩
  cases c with
  | insert x =>
    obtain ⟨h1, hh1, hsz, hwf1, ho1, _⟩ := insert_spec h x hwf hs ho
    exact ⟨h1, hh1, hwf1, ho1, by omega⟩
  | pop =>
    obtain ⟨h1, hcase, hwf1, ho1, hsz⟩ := hpop
    refine ⟨h1, ?_, hwf1, ho1, hsz⟩
    rcases hcase with ⟨h0, rfl⟩ | ⟨h0, hh1⟩
    · simp [applyCall, pop_eq, empty, h0]
    · have hne : h._size ≠ 0 := by omega
      simp [applyCall, pop_eq, empty, hne, hh1]
  | popInto x =>
    obtain ⟨h1, hcase, hwf1, ho1, hsz⟩ := hpop
    refine ⟨h1, ?_, hwf1, ho1, hsz⟩
    rcases hcase with ⟨h0, rfl⟩ | ⟨h0, hh1⟩
    · simp [applyCall, popInto_eq, empty, h0]
    · have hne : h._size ≠ 0 := by omega
      simp [applyCall, popInto_eq, empty, hne, hh1]
  | clear =>
    refine ⟨clear h, rfl, ?_, ?_, ?_⟩
    · unfold Wf clear; simp
    · intro i hi
      simp [clear] at hi
    · simp [clear]

theorem runCalls_inv [MovedFrom α] :
    ∀ (calls : List (Call α)) (h : MinimumHeap α), Wf h → HeapOrdered h →
      h._size + calls.length < 2 ^ 63 →
      ∃ h1, runCalls h calls = some h1 ∧ Wf h1 ∧ HeapOrdered h1 ∧
        h1._size ≤ h._size + calls.length := by
  intro calls
  induction calls with
  | nil =>
    intro h hwf ho _
    exact ⟨h, rfl, hwf, ho, by simp⟩
  | cons c cs ih =>
    intro h hwf ho hb
    simp only [List.length_cons] at hb
    obtain ⟨h1, hh1, hwf1, ho1, hsz1⟩ := applyCall_inv h c hwf (by omega) ho
    obtain ⟨h2, hh2, hwf2, ho2, hsz2⟩ := ih h1 hwf1 ho1 (by omega)
    refine ⟨h2, ?_, hwf2, ho2, ?_⟩
    · simp only [runCalls, hh1, Option.some_bind, hh2]
    · simp only [List.length_cons]; omega

theorem construct_inv (ctor : Ctor α) (hb : ctor.count < 2 ^ 63) :
    ∃ h0, construct ctor = some h0 ∧ Wf h0 ∧ HeapOrdered h0 ∧ h0._size = ctor.count := by
  cases ctor with
  | capacity c =>
    refine ⟨mk_capacity c, rfl, ?_, ?_, rfl⟩
    · unfold Wf mk_capacity; simp
    · intro i hi
      simp [mk_capacity] at hi
  | copyVector vec =>
    obtain ⟨h, hh, hsz, hl, ho, _⟩ := mk_vector_copy_spec vec hb
    exact ⟨h, hh, by unfold Wf; omega, ho, hsz⟩
  | moveVector vec =>
    obtain ⟨h, hh, hsz, hl, ho, _⟩ := mk_vector_move_spec vec hb
    exact ⟨h, hh, by unfold Wf; omega, ho, hsz⟩

theorem pop_spec [MovedFrom α] (h : MinimumHeap α) (hwf : Wf h) (h0 : 0 < h._size)
    (hs : h._size < 2 ^ 63) (ho : HeapOrdered h) :
    ∃ h1, pop h = some (.ok (rd h._elements 0), h1) ∧ h1._size + 1 = h._size ∧ Wf h1 ∧
      HeapOrdered h1 ∧ (rd h._elements 0 :: contents h1).Perm (contents h) ∧
      (∀ y, y ∈ contents h → rd h._elements 0 ≤ y) ∧
      h1._elements.length = h._elements.length := by
  obtain ⟨h1, hh1, hsz, hwf1, ho1, hperm, hlen⟩ := popRoot_spec h hwf h0 hs ho
  refine ⟨h1, ?_, hsz, hwf1, ho1, hperm, ?_, hlen⟩
  · have hne : h._size ≠ 0 := by omega
    simp [pop_eq, empty, hne, hh1]
  · intro y hy
    unfold contents at hy
    rw [mem_take_iff_rd _ _ hwf] at hy
    obtain ⟨j, hj, rfl⟩ := hy
    exact root_le_of_upFrom _ _ ((heapOrdered_iff_upFrom h).mp ho) j hj

theorem insertAll_spec :
    ∀ (xs : List α) (h : MinimumHeap α), Wf h → HeapOrdered h →
      h._size + xs.length < 2 ^ 63 →
      ∃ h1, insertAll h xs = some h1 ∧ Wf h1 ∧ HeapOrdered h1 ∧
        h1._size = h._size + xs.length ∧ (contents h1).Perm (contents h ++ xs) := by
  intro xs
  induction xs with
  | nil =>
    intro h hwf ho _
    exact ⟨h, rfl, hwf, ho, by simp, by simp⟩
  | cons x xs ih =>
    intro h hwf ho hb
    simp only [List.length_cons] at hb
    obtain ⟨h1, hh1, hsz1, hwf1, ho1, hperm1, _⟩ := insert_spec h x hwf (by omega) ho
    obtain ⟨h2, hh2, hwf2, ho2, hsz2, hperm2⟩ := ih h1 hwf1 ho1 (by omega)
    refine ⟨h2, ?_, hwf2, ho2, ?_, ?_⟩
    · simp only [insertAll, hh1, Option.some_bind, hh2]
    · simp only [List.length_cons]; omega
    · refine hperm2.trans ?_
      refine (List.Perm.append_right xs hperm1).trans ?_
      simp only [List.cons_append]
      exact List.perm_middle.symm

theorem drainFuel_spec [MovedFrom α] :
    ∀ (fuel : Nat) (h : MinimumHeap α), Wf h → HeapOrdered h → h._size < 2 ^ 63 →
      h._size < fuel →
      ∃ out hEnd, drainFuel fuel h = some (.ok out, hEnd) ∧ hEnd._size = 0 ∧
        out.Sorted (· ≤ ·) ∧ out.Perm (contents h) := by
  intro fuel
  induction fuel with
  | zero =>
    intro h _ _ _ hf
    omega
  | succ fuel ih =>
    intro h hwf ho hs hf
    by_cases h0 : h._size = 0
    · refine ⟨[], h, ?_, h0, List.sorted_nil, ?_⟩
      · simp [drainFuel, empty, h0]
      · unfold contents
        rw [h0, List.take_zero]
    · obtain ⟨h1, hh1, hsz1, hwf1, ho1, hperm1, hmin, _⟩ :=
        pop_spec h hwf (by omega) hs ho
      obtain ⟨out, hEnd, hd, hE0, hsorted, hperm⟩ := ih h1 hwf1 ho1 (by omega) (by omega)
      refine ⟨rd h._elements 0 :: out, hEnd, ?_, hE0, ?_, ?_⟩
      · simp [drainFuel, empty, h0, hh1, hd, Except.map]
      · rw [List.sorted_cons]
        refine ⟨?_, hsorted⟩
        intro b hb
        apply hmin
        apply hperm1.subset
        exact List.mem_cons_of_mem _ (hperm.subset hb)
      · exact (List.Perm.cons _ hperm).trans hperm1

theorem drain_spec [MovedFrom α] (h : MinimumHeap α) (hwf : Wf h) (ho : HeapOrdered h)
    (hs : h._size < 2 ^ 63) :
    ∃ out hEnd, drain h = some (.ok out, hEnd) ∧ hEnd._size = 0 ∧
      out.Sorted (· ≤ ·) ∧ out.Perm (contents h) :=
  drainFuel_spec (h._size + 1) h hwf ho hs (by omega)

theorem insertAll_drain_spec [MovedFrom α] (h0 : MinimumHeap α) (xs : List α) (hwf : Wf h0)
    (he : h0._size = 0) (hl : xs.length < 2 ^ 63) :
    ∃ h out hEnd, insertAll h0 xs = some h ∧ drain h = some (.ok out, hEnd) ∧
      hEnd._size = 0 ∧ out.Sorted (· ≤ ·) ∧ out.Perm xs := by
  have ho0 : HeapOrdered h0 := by
    intro i hi
    omega
  obtain ⟨h, hh, hwf1, ho1, hsz, hperm⟩ := insertAll_spec xs h0 hwf ho0 (by omega)
  obtain ⟨out, hEnd, hd, hE, hsorted, hperm2⟩ := drain_spec h hwf1 ho1 (by omega)
  refine ⟨h, out, hEnd, hh, hd, hE, hsorted, hperm2.trans ?_⟩
  have hc0 : contents h0 = [] := by
    unfold contents
    rw [he, List.take_zero]
  rw [hc0] at hperm
  simpa using hperm

omit [Inhabited α] in
theorem sorted_perm_unique (out target xs : List α) (h1 : out.Sorted (· ≤ ·))
    (h2 : out.Perm xs) (h3 : target.Sorted (· ≤ ·)) (h4 : target.Perm xs) : out = target :=
  List.eq_of_perm_of_sorted (h2.trans h4.symm) h1 h3

theorem mk_vector_drain_spec [MovedFrom α] (v : List α) (hl : v.length < 2 ^ 63) :
    ∃ hb out hEnd, mk_vector_copy v = some hb ∧ mk_vector_move v = some hb ∧
      drain hb = some (.ok out, hEnd) ∧ hEnd._size = 0 ∧ out.Sorted (· ≤ ·) ∧ out.Perm v := by
  obtain ⟨hb, hh, hsz, hlen, ho, hperm⟩ := mk_vector_copy_spec v hl
  obtain ⟨out, hEnd, hd, hE, hsorted, hperm2⟩ :=
    drain_spec hb (by unfold Wf; omega) ho (by omega)
  exact ⟨hb, out, hEnd, hh, hh, hd, hE, hsorted, hperm2.trans hperm⟩

omit [LinearOrder α] [Inhabited α] in
theorem atIndex_throws_iff (h : MinimumHeap α) (i : Nat) :
    (atIndex h i).1 = .error .MinimumHeapIndexOutOfBoundsException ↔ h._size < i := by
  unfold atIndex
  by_cases hi : i > h._size
  · simp [hi]
  · rw [if_neg hi]
    simp only [subscript]
    cases h._elements[i]? with
    | none => simp; omega
    | some x => simp; omega

theorem test_strings_sorted :
    (["This", "a", "is", "just", "test"] : List String).Sorted (· ≤ ·) := by
  simp only [List.Sorted, List.pairwise_cons, List.mem_cons, List.mem_singleton,
    forall_eq_or_imp, forall_eq, List.not_mem_nil, IsEmpty.forall_iff, implies_true,
    List.Pairwise.nil, and_true, String.le_iff_toList_le]
  decide

theorem popN_spec [MovedFrom α] :
    ∀ (k : Nat) (h : MinimumHeap α), Wf h → HeapOrdered h → h._size < 2 ^ 63 → k ≤ h._size →
      ∃ (outs : List α) (hk : MinimumHeap α), popN k h = some (outs.map Except.ok, hk) ∧ outs.length = k ∧
        hk._size + k = h._size ∧ Wf hk ∧ HeapOrdered hk := by
  intro k
  induction k with
  | zero =>
    intro h hwf ho _ _
    exact ⟨[], h, rfl, rfl, rfl, hwf, ho⟩
  | succ k ih =>
    intro h hwf ho hs hk
    obtain ⟨h1, hh1, hsz1, hwf1, ho1, _⟩ := pop_spec h hwf (by omega) hs ho
    obtain ⟨outs, hk1, hp, hlen, hsz, hwfk, hok⟩ := ih h1 hwf1 ho1 (by omega) (by omega)
    refine ⟨rd h._elements 0 :: outs, hk1, ?_, by simp [hlen], by omega, hwfk, hok⟩
    simp [popN, hh1, hp]

theorem popN_underflow [MovedFrom α] :
    ∀ (k : Nat) (h : MinimumHeap α), Wf h → HeapOrdered h → h._size < 2 ^ 63 → h._size = k →
      ∃ (outs : List α) (hn : MinimumHeap α), popN (k + 1) h
          = some (outs.map Except.ok ++ [.error .MinimumHeapUnderflowException], hn) ∧
        outs.length = k ∧ hn._size = 0 := by
  intro k
  induction k with
  | zero =>
    intro h _ _ _ h0
    refine ⟨[], h, ?_, rfl, h0⟩
    simp [popN, pop_eq, empty, h0]
  | succ k ih =>
    intro h hwf ho hs hk
    obtain ⟨h1, hh1, hsz1, hwf1, ho1, _⟩ := pop_spec h hwf (by omega) hs ho
    obtain ⟨outs, hn, hp, hlen, hsz⟩ := ih h1 hwf1 ho1 (by omega) (by omega)
    refine ⟨rd h._elements 0 :: outs, hn, ?_, by simp [hlen], hsz⟩
    rw [popN, hh1]
    simp [hp]

theorem intercalate_go_append (s : String) :
    ∀ (l : List String) (pre acc : String),
      String.intercalate.go (pre ++ acc) s l = pre ++ String.intercalate.go acc s l := by
  intro l
  induction l with
  | nil =>
    intro pre acc
    rfl
  | cons a l ih =>
    intro pre acc
    simp only [String.intercalate.go]
    rw [← ih, String.append_assoc, String.append_assoc, String.append_assoc]

theorem foldl_sep_eq_go (f : Nat → String) :
    ∀ (l : List Nat), (∀ j, j ∈ l → 0 < j) → ∀ acc : String,
      l.foldl (fun acc j => (if j > 0 then acc ++ ", " else acc) ++ f j) acc
        = String.intercalate.go acc ", " (l.map f) := by
  intro l
  induction l with
  | nil =>
    intro _ acc
    rfl
  | cons a l ih =>
    intro hpos acc
    have ha : a > 0 := hpos a (List.mem_cons_self _ _)
    simp only [List.foldl_cons, List.map_cons, String.intercalate.go, if_pos ha]
    exact ih (fun j hj => hpos j (List.mem_cons_of_mem _ hj)) _

omit [LinearOrder α] in
theorem outputLoop_spec [Streamed α] (h : MinimumHeap α) (hs : h._size < 2 ^ 64) :
    ∀ (k fuel i : Nat) (out : String), i + k = h._size → k < fuel →
      outputLoop fuel h i out = some ((List.range' i k).foldl
        (fun acc j => (if j > 0 then acc ++ ", " else acc) ++ Streamed.put (rd h._elements j))
        out) := by
  intro k
  induction k with
  | zero =>
    intro fuel i out hik hf
    obtain ⟨f, rfl⟩ : ∃ f, fuel = f + 1 := ⟨fuel - 1, by omega⟩
    simp only [outputLoop, List.range'_zero, List.foldl_nil]
    rw [if_neg (by omega)]
  | succ k ih =>
    intro fuel i out hik hf
    obtain ⟨f, rfl⟩ : ∃ f, fuel = f + 1 := ⟨fuel - 1, by omega⟩
    simp only [outputLoop, List.range'_succ, List.foldl_cons]
    rw [if_pos (by omega), incr_eq i (by omega)]
    exact ih f (i + 1) _ (by omega) (by omega)

omit [LinearOrder α] in
theorem output_spec [Streamed α] (h : MinimumHeap α) (out : String) (hs : h._size < 2 ^ 64) :
    output h out = some (out ++ "MinimumHeap [" ++
      ", ".intercalate ((List.range h._size).map fun i => Streamed.put (rd h._elements i))
      ++ "]", h) := by
  unfold output
  rw [outputLoop_spec h hs h._size (h._size + 1) 0 _ (by omega) (by omega)]
  simp only [Option.map_some', Option.some.injEq, Prod.mk.injEq, and_true]
  congr 1
  rw [List.range_eq_range']
  cases hn : h._size with
  | zero => simp [String.intercalate]
  | succ n =>
    rw [List.range'_succ, List.foldl_cons, List.map_cons]
    simp only [gt_iff_lt, Nat.lt_irrefl, if_false, String.intercalate]
    rw [foldl_sep_eq_go _ _ (by
      intro j hj
      rw [List.mem_range'_1] at hj
      omega)]
    exact intercalate_go_append _ _ _ _

omit [LinearOrder α] in
theorem range_map_rd_eq_contents (h : MinimumHeap α) (hwf : Wf h) :
    (List.range h._size).map (fun i => rd h._elements i) = contents h := by
  unfold Wf at hwf
  apply List.ext_getElem
  · simp [contents]
    omega
  · intro n h1 h2
    simp only [List.length_map, List.length_range] at h1
    simp only [List.getElem_map, List.getElem_range]
    rw [← rd_take _ h._size n h1]
    unfold contents at h2 ⊢
    rw [rd_eq_getElem _ _ h2]

theorem extractWord_rendering (t : String) :
    extractWord ("MinimumHeap [" ++ t) = "MinimumHeap" := by
  have hd : ("MinimumHeap [" ++ t).toList
      = 'M' :: 'i' :: 'n' :: 'i' :: 'm' :: 'u' :: 'm' :: 'H' :: 'e' :: 'a' :: 'p' :: ' ' :: '['
        :: t.toList := by
    show ("MinimumHeap [" ++ t).data = _
    rw [String.data_append]
    rfl
  unfold extractWord
  rw [hd]
  have hM : isspace 'M' = false := by decide
  have hi : isspace 'i' = false := by decide
  have hn : isspace 'n' = false := by decide
  have hm : isspace 'm' = false := by decide
  have hu : isspace 'u' = false := by decide
  have hH : isspace 'H' = false := by decide
  have he : isspace 'e' = false := by decide
  have ha : isspace 'a' = false := by decide
  have hp : isspace 'p' = false := by decide
  have hsp : isspace ' ' = true := by decide
  simp only [List.dropWhile, List.takeWhile, hM, hi, hn, hm, hu, hH, he, ha, hp, hsp,
    Bool.not_false, Bool.not_true]

omit [LinearOrder α] in
theorem to_string_spec [Streamed α] (h : MinimumHeap α) (hs : h._size < 2 ^ 64) :
    to_string h = some ("MinimumHeap", h) := by
  unfold to_string
  rw [output_spec h "" hs]
  simp only [Option.map_some', Option.some.injEq, Prod.mk.injEq, and_true]
  rw [String.append_assoc, String.append_assoc, String.empty_append]
  exact extractWord_rendering _

theorem popN_min [MovedFrom α] :
    ∀ (k : Nat) (h : MinimumHeap α) (m : α), Wf h → HeapOrdered h → h._size < 2 ^ 63 →
      (∀ y, y ∈ contents h → m ≤ y) → (contents h).count m = k →
      ∃ hk, popN k h = some (List.replicate k (.ok m), hk) ∧ Wf hk ∧ HeapOrdered hk ∧
        hk._size + k = h._size ∧ ∀ y, y ∈ contents hk → m < y := by
  intro k
  induction k with
  | zero =>
    intro h m hwf ho _ hmin hc
    refine ⟨h, rfl, hwf, ho, rfl, ?_⟩
    intro y hy
    refine lt_of_le_of_ne (hmin y hy) ?_
    intro hmy
    rw [← hmy] at hy
    exact absurd (List.count_pos_iff.mpr hy) (by omega)
  | succ k ih =>
    intro h m hwf ho hs hmin hc
    have hm : m ∈ contents h := List.count_pos_iff.mp (by omega)
    have hpos : 0 < h._size := by
      have : 0 < (contents h).length := List.length_pos_of_mem hm
      unfold contents at this
      rw [List.length_take] at this
      omega
    obtain ⟨h1, hh1, hsz1, hwf1, ho1, hperm, hroot, _⟩ := pop_spec h hwf hpos hs ho
    have hr : rd h._elements 0 = m :=
      le_antisymm (hroot m hm) (hmin _ (hperm.subset (List.mem_cons_self _ _)))
    rw [hr] at hh1 hperm
    have hc1 : (contents h1).count m = k := by
      have := hperm.count_eq m
      rw [List.count_cons_self] at this
      omega
    obtain ⟨hk, hp, hwfk, hok, hszk, hgt⟩ :=
      ih h1 m hwf1 ho1 (by omega)
        (fun y hy => hmin y (hperm.subset (List.mem_cons_of_mem _ hy))) hc1
    refine ⟨hk, ?_, hwfk, hok, by omega, hgt⟩
    rw [popN, hh1]
    simp [hp, List.replicate_succ]

theorem built_heap_inv (ctor : Ctor α) (xs : List α) (h0 h : MinimumHeap α)
    (hb : ctor.count + xs.length < 2 ^ 63) (hc : construct ctor = some h0)
    (hi : insertAll h0 xs = some h) :
    Wf h ∧ HeapOrdered h ∧ h._size < 2 ^ 63 := by
  obtain ⟨h0', hc', hwf0, ho0, hsz0⟩ := construct_inv ctor (by omega)
  rw [hc] at hc'
  cases hc'
  obtain ⟨h', hi', hwf, ho, hsz, _⟩ := insertAll_spec xs h0 hwf0 ho0 (by omega)
  rw [hi] at hi'
  cases hi'
  exact ⟨hwf, ho, by omega⟩

theorem inSubtree_le {r k : Nat} (hk : InSubtree r k) : r ≤ k := by
  induction hk with
  | root => exact Nat.le_refl _
  | left k _ ih => omega
  | right k _ ih => omega

theorem inSubtree_trans {r i k : Nat} (hi : InSubtree r i) (hk : InSubtree i k) :
    InSubtree r k := by
  induction hk with
  | root => exact hi
  | left k _ ih => exact InSubtree.left k ih
  | right k _ ih => exact InSubtree.right k ih

theorem inSubtree_child {r i s : Nat} (hi : InSubtree r i) (hs : s = 2 * i + 1 ∨ s = 2 * i + 2) :
    InSubtree r s := by
  rcases hs with rfl | rfl
  · exact InSubtree.left i hi
  · exact InSubtree.right i hi

theorem minimumHeapifyFuel_subtree (r : Nat) :
    ∀ (fuel : Nat) (h : MinimumHeap α) (i : Nat), i < h._size → h._size < 2 ^ 63 → Wf h →
      h._size - i ≤ fuel → InSubtree r i →
      (∀ j, 0 < j → j < h._size → InSubtree r ((j - 1) / 2) → (j - 1) / 2 ≠ i →
        rd h._elements ((j - 1) / 2) ≤ rd h._elements j) →
      (∀ j, 0 < j → j < h._size → (j - 1) / 2 = i → i ≠ r →
        rd h._elements ((i - 1) / 2) ≤ rd h._elements j) →
      ∃ h1, minimumHeapifyFuel fuel h i = some h1 ∧ h1._size = h._size ∧
        h1._elements.length = h._elements.length ∧
        (∀ j, 0 < j → j < h._size → InSubtree r ((j - 1) / 2) →
          rd h1._elements ((j - 1) / 2) ≤ rd h1._elements j) ∧
        (contents h1).Perm (contents h) ∧
        ∀ k, (¬ InSubtree i k ∨ h._size ≤ k) → rd h1._elements k = rd h._elements k := by
  intro fuel
  induction fuel with
  | zero =>
    intro h i hi _ _ hf
    omega
  | succ fuel ih =>
    intro h i hi hs hwf hf hri hA hB
    obtain ⟨hsm, hch⟩ := smallest_spec h i hi hs
    unfold Wf at hwf
    simp only [minimumHeapifyFuel]
    by_cases hsi : smallest h i = i
    · rw [if_neg (by simpa using hsi)]
      refine ⟨h, rfl, rfl, rfl, ?_, List.Perm.refl _, fun _ _ => rfl⟩
      intro j hj0 hjn hjr
      by_cases hp : (j - 1) / 2 = i
      · rw [hp]
        have := hch j hjn (by omega)
        rwa [hsi] at this
      · exact hA j hj0 hjn hjr hp
    · rw [if_pos hsi]
      rcases hsm with hsm | ⟨hsc, hsn, hlt⟩
      · exact absurd hsm hsi
      generalize smallest h i = s at hsi hsc hsn hlt hch
      have hsgt : i < s := by omega
      have hpar : (s - 1) / 2 = i := by omega
      have hil : i < h._elements.length := by omega
      have hsl : s < h._elements.length := by omega
      have hrs : InSubtree r s := inSubtree_child hri hsc
      have hA1 : ∀ j, 0 < j → j < h._size → InSubtree r ((j - 1) / 2) → (j - 1) / 2 ≠ s →
          rd (swapAt h._elements i s) ((j - 1) / 2) ≤ rd (swapAt h._elements i s) j := by
        intro j hj0 hjn hjr hjp
        by_cases hp : (j - 1) / 2 = i
        · rw [hp, rd_swapAt_left _ _ _ hil]
          by_cases hjs : j = s
          · rw [hjs, rd_swapAt_right _ _ _ hsl]
            exact le_of_lt hlt
          · rw [rd_swapAt_ne _ _ _ _ (by omega) hjs]
            exact hch j hjn (by omega)
        · rw [rd_swapAt_ne _ _ _ _ hp hjp]
          by_cases hji : j = i
          · rw [hji, rd_swapAt_left _ _ _ hil]
            have hge := inSubtree_le hjr
            exact hB s (by omega) hsn hpar (by omega)
          · rw [rd_swapAt_ne _ _ _ _ hji (by omega)]
            exact hA j hj0 hjn hjr hp
      have hB1 : ∀ j, 0 < j → j < h._size → (j - 1) / 2 = s → s ≠ r →
          rd (swapAt h._elements i s) ((s - 1) / 2) ≤ rd (swapAt h._elements i s) j := by
        intro j hj0 hjn hjp _
        rw [hpar, rd_swapAt_left _ _ _ hil, rd_swapAt_ne _ _ _ _ (by omega) (by omega)]
        have := hA j hj0 hjn (by rw [hjp]; exact hrs) (by omega)
        rwa [hjp] at this
      obtain ⟨h1, he, hsz, hlen, hup, hperm, hfix⟩ :=
        ih { h with _elements := swapAt h._elements i s } s hsn hs
          (by unfold Wf; simp only [length_swapAt]; exact hwf) (by simp only; omega)
          hrs hA1 hB1
      refine ⟨h1, he, hsz, ?_, hup, ?_, ?_⟩
      · rw [hlen]; exact length_swapAt _ _ _
      · exact hperm.trans (take_swapAt_perm _ _ _ _ hi hsn hwf)
      · intro k hk
        have his : InSubtree i s := inSubtree_child InSubtree.root hsc
        have hk1 : ¬ InSubtree s k ∨ h._size ≤ k := by
          rcases hk with hk | hk
          · exact Or.inl fun hsk => hk (inSubtree_trans his hsk)
          · exact Or.inr hk
        rw [hfix k hk1]
        rcases hk with hk | hk
        · refine rd_swapAt_ne _ _ _ _ ?_ ?_
          · intro hki
            exact hk (hki ▸ InSubtree.root)
          · intro hks
            exact hk (hks ▸ his)
        · exact rd_swapAt_ne _ _ _ _ (by omega) (by omega)

theorem minimumHeapifyFuel_terminates :
    ∀ (d : Nat) (h : MinimumHeap α) (i : Nat), h._size - i ≤ d → h._size < 2 ^ 63 →
      2 * i + 2 < 2 ^ 64 →
      ∃ h1, h1._size = h._size ∧ ∀ fuel, d < fuel → minimumHeapifyFuel fuel h i = some h1 := by
  intro d
  induction d with
  | zero =>
    intro h i hd hs hi
    obtain ⟨hsm, _⟩ := smallest_spec_nowrap h i hi
    have hsi : smallest h i = i := by
      rcases hsm with hsm | ⟨hsc, hsn, _⟩
      · exact hsm
      · omega
    refine ⟨h, rfl, ?_⟩
    intro fuel hf
    obtain ⟨f, rfl⟩ : ∃ f, fuel = f + 1 := ⟨fuel - 1, by omega⟩
    simp only [minimumHeapifyFuel]
    rw [if_neg (by simpa using hsi)]
  | succ d ih =>
    intro h i hd hs hi
    obtain ⟨hsm, _⟩ := smallest_spec_nowrap h i hi
    by_cases hsi : smallest h i = i
    · refine ⟨h, rfl, ?_⟩
      intro fuel hf
      obtain ⟨f, rfl⟩ : ∃ f, fuel = f + 1 := ⟨fuel - 1, by omega⟩
      simp only [minimumHeapifyFuel]
      rw [if_neg (by simpa using hsi)]
    · rcases hsm with hsm | ⟨hsc, hsn, _⟩
      · exact absurd hsm hsi
      obtain ⟨h1, hsz, hall⟩ :=
        ih { h with _elements := swapAt h._elements i (smallest h i) } (smallest h i)
          (by simp only; omega) hs (by omega)
      refine ⟨h1, hsz, ?_⟩
      intro fuel hf
      obtain ⟨f, rfl⟩ : ∃ f, fuel = f + 1 := ⟨fuel - 1, by omega⟩
      simp only [minimumHeapifyFuel]
      rw [if_pos hsi]
      exact hall f (by omega)

theorem smallest_right_strict (h : MinimumHeap α) (i : Nat) (hi : 2 * i + 2 < 2 ^ 64)
    (hr : smallest h i = 2 * i + 2) (hl : 2 * i + 1 < h._size) :
    rd h._elements (2 * i + 2) < rd h._elements (2 * i + 1) := by
  unfold smallest at hr
  rw [leftChild_eq i (by omega), rightChild_eq i (by omega)] at hr
  simp only [] at hr
  by_cases h1 : 2 * i + 1 < h._size ∧ rd h._elements (2 * i + 1) < rd h._elements i
  · rw [if_pos h1] at hr
    by_cases h2 : 2 * i + 2 < h._size ∧ rd h._elements (2 * i + 2) < rd h._elements (2 * i + 1)
    · exact h2.2
    · rw [if_neg h2] at hr
      omega
  · rw [if_neg h1] at hr
    by_cases h2 : 2 * i + 2 < h._size ∧ rd h._elements (2 * i + 2) < rd h._elements i
    · exact lt_of_lt_of_le h2.2 (not_lt.mp fun hlt => h1 ⟨hl, hlt⟩)
    · rw [if_neg h2] at hr
      omega

theorem smallest_left_on_tie (h : MinimumHeap α) (i : Nat) (hi : 2 * i + 2 < 2 ^ 64)
    (hl : 2 * i + 1 < h._size)
    (heq : rd h._elements (2 * i + 1) = rd h._elements (2 * i + 2))
    (hlt : rd h._elements (2 * i + 1) < rd h._elements i) :
    smallest h i = 2 * i + 1 := by
  unfold smallest
  rw [leftChild_eq i (by omega), rightChild_eq i (by omega)]
  simp only []
  have h1 : (if 2 * i + 1 < h._size ∧ rd h._elements (2 * i + 1) < rd h._elements i
      then 2 * i + 1 else i) = 2 * i + 1 := if_pos ⟨hl, hlt⟩
  rw [h1, if_neg]
  intro h2
  rw [heq] at h2
  exact lt_irrefl _ h2.2

theorem makeMinHeapLoopTrace_heap :
    ∀ (fuel : Nat) (h : MinimumHeap α) (i : Nat),
      (makeMinHeapLoopTrace fuel h i).map (fun r => r.2) = makeMinHeapLoop fuel h i := by
  intro fuel
  induction fuel with
  | zero =>
    intro h i
    rfl
  | succ fuel ih =>
    intro h i
    simp only [makeMinHeapLoopTrace, makeMinHeapLoop]
    by_cases hi : i < h._size
    · rw [if_pos hi, if_pos hi]
      cases minimumHeapify h i with
      | none => rfl
      | some h1 =>
        simp only [Option.some_bind, Option.map_map]
        rw [← ih h1 (decr i)]
        rfl
    · rw [if_neg hi, if_neg hi]
      rfl

theorem makeMinHeapLoopTrace_spec :
    ∀ (i fuel : Nat) (h : MinimumHeap α), i < h._size → h._size < 2 ^ 63 → i + 2 ≤ fuel →
      ∃ h1, makeMinHeapLoopTrace fuel h i = some ((List.range (i + 1)).reverse, h1) ∧
        h1._size = h._size := by
  intro i
  induction i with
  | zero =>
    intro fuel h hi hs hf
    obtain ⟨f, rfl⟩ : ∃ f, fuel = f + 2 := ⟨fuel - 2, by omega⟩
    obtain ⟨h1, hsz, hall⟩ := minimumHeapifyFuel_terminates h._size h 0 (by omega) hs (by omega)
    have hh1 : minimumHeapify h 0 = some h1 := hall (h._size + 1) (by omega)
    refine ⟨h1, ?_, hsz⟩
    simp only [makeMinHeapLoopTrace, if_pos hi, hh1, Option.some_bind, decr_zero]
    rw [if_neg (by rw [hsz]; omega)]
    rfl
  | succ i ih =>
    intro fuel h hi hs hf
    obtain ⟨f, rfl⟩ : ∃ f, fuel = f + 1 := ⟨fuel - 1, by omega⟩
    obtain ⟨h1, hsz, hall⟩ :=
      minimumHeapifyFuel_terminates h._size h (i + 1) (by omega) hs (by omega)
    have hh1 : minimumHeapify h (i + 1) = some h1 := hall (h._size + 1) (by omega)
    obtain ⟨h2, hh2, hsz2⟩ := ih f h1 (by omega) (by omega) (by omega)
    refine ⟨h2, ?_, by omega⟩
    simp only [makeMinHeapLoopTrace, if_pos hi, hh1, Option.some_bind]
    rw [decr_eq (i + 1) (by omega) (by omega)]
    simp only [Nat.add_sub_cancel, hh2, Option.map_some']
    rw [List.range_succ (n := i + 1), List.reverse_append]
    rfl

omit [LinearOrder α] in
theorem swapAt_agree (v1 v2 : List α) (i j m : Nat) (hi : i ≤ m) (hj : j ≤ m)
    (h1 : m < v1.length) (h2 : m < v2.length) (hag : ∀ k, k ≤ m → rd v1 k = rd v2 k) :
    ∀ k, k ≤ m → rd (swapAt v1 i j) k = rd (swapAt v2 i j) k := by
  intro k hk
  by_cases hki : k = i
  · rw [hki, rd_swapAt_left _ _ _ (by omega), rd_swapAt_left _ _ _ (by omega)]
    exact hag j hj
  · by_cases hkj : k = j
    · rw [hkj, rd_swapAt_right _ _ _ (by omega), rd_swapAt_right _ _ _ (by omega)]
      exact hag i hi
    · rw [rd_swapAt_ne _ _ _ _ hki hkj, rd_swapAt_ne _ _ _ _ hki hkj]
      exact hag k hk

theorem siftUpFuel_agree (m : Nat) :
    ∀ (fuel : Nat) (v1 v2 : List α) (i : Nat), i ≤ m → m < v1.length → m < v2.length →
      i < 2 ^ 64 → (∀ k, k ≤ m → rd v1 k = rd v2 k) → i < fuel →
      ∃ w1 w2, siftUpFuel fuel v1 i = some w1 ∧ siftUpFuel fuel v2 i = some w2 ∧
        w1.length = v1.length ∧ w2.length = v2.length ∧
        ∀ k, k ≤ m → rd w1 k = rd w2 k := by
  intro fuel
  induction fuel with
  | zero =>
    intro _ _ i _ _ _ _ _ hf
    omega
  | succ fuel ih =>
    intro v1 v2 i him hl1 hl2 hi hag hf
    simp only [siftUpFuel]
    by_cases hc : 0 < i ∧ rd v1 i < rd v1 (parent i)
    · have hp : parent i = (i - 1) / 2 := parent_eq i hc.1 (by omega)
      have hc2 : 0 < i ∧ rd v2 i < rd v2 (parent i) := by
        refine ⟨hc.1, ?_⟩
        rw [← hag i him, hp, ← hag ((i - 1) / 2) (by omega), ← hp]
        exact hc.2
      rw [if_pos hc, if_pos hc2, hp]
      obtain ⟨w1, w2, e1, e2, hw1, hw2, hagw⟩ :=
        ih (swapAt v1 i ((i - 1) / 2)) (swapAt v2 i ((i - 1) / 2)) ((i - 1) / 2) (by omega)
          (by rw [length_swapAt]; exact hl1) (by rw [length_swapAt]; exact hl2) (by omega)
          (swapAt_agree v1 v2 i ((i - 1) / 2) m him (by omega) hl1 hl2 hag) (by omega)
      exact ⟨w1, w2, e1, e2, by rw [hw1, length_swapAt], by rw [hw2, length_swapAt], hagw⟩
    · have hc2 : ¬ (0 < i ∧ rd v2 i < rd v2 (parent i)) := by
        intro hc2
        apply hc
        have hp : parent i = (i - 1) / 2 := parent_eq i hc2.1 (by omega)
        refine ⟨hc2.1, ?_⟩
        rw [hag i him, hp, hag ((i - 1) / 2) (by omega), ← hp]
        exact hc2.2
      rw [if_neg hc, if_neg hc2]
      exact ⟨v1, v2, rfl, rfl, rfl, rfl, hag⟩

theorem smallest_agree (h1 h2 : MinimumHeap α) (i : Nat) (hag : Agree h1 h2)
    (hi : i < h1._size) (hs : h1._size < 2 ^ 63) : smallest h1 i = smallest h2 i := by
  obtain ⟨hsz, hrd⟩ := hag
  unfold smallest
  rw [leftChild_eq i (by omega), rightChild_eq i (by omega), ← hsz]
  simp only []
  have hl : (2 * i + 1 < h1._size ∧ rd h1._elements (2 * i + 1) < rd h1._elements i) ↔
      (2 * i + 1 < h1._size ∧ rd h2._elements (2 * i + 1) < rd h2._elements i) := by
    constructor
    · rintro ⟨ha, hb⟩
      exact ⟨ha, by rw [← hrd _ ha, ← hrd _ hi]; exact hb⟩
    · rintro ⟨ha, hb⟩
      exact ⟨ha, by rw [hrd _ ha, hrd _ hi]; exact hb⟩
  by_cases h1c : 2 * i + 1 < h1._size ∧ rd h1._elements (2 * i + 1) < rd h1._elements i
  · rw [if_pos h1c, if_pos (hl.mp h1c)]
    by_cases h2c : 2 * i + 2 < h1._size ∧
        rd h1._elements (2 * i + 2) < rd h1._elements (2 * i + 1)
    · rw [if_pos h2c, if_pos ⟨h2c.1, by rw [← hrd _ h2c.1, ← hrd _ h1c.1]; exact h2c.2⟩]
    · rw [if_neg h2c, if_neg]
      rintro ⟨ha, hb⟩
      exact h2c ⟨ha, by rw [hrd _ ha, hrd _ h1c.1]; exact hb⟩
  · rw [if_neg h1c, if_neg (fun hc => h1c (hl.mpr hc))]
    by_cases h2c : 2 * i + 2 < h1._size ∧ rd h1._elements (2 * i + 2) < rd h1._elements i
    · rw [if_pos h2c, if_pos ⟨h2c.1, by rw [← hrd _ h2c.1, ← hrd _ hi]; exact h2c.2⟩]
    · rw [if_neg h2c, if_neg]
      rintro ⟨ha, hb⟩
      exact h2c ⟨ha, by rw [hrd _ ha, hrd _ hi]; exact hb⟩

theorem minimumHeapifyFuel_agree :
    ∀ (fuel : Nat) (h1 h2 : MinimumHeap α) (i : Nat), Agree h1 h2 → Wf h1 → Wf h2 →
      i < h1._size → h1._size < 2 ^ 63 → h1._size - i ≤ fuel →
      ∃ r1 r2, minimumHeapifyFuel fuel h1 i = some r1 ∧ minimumHeapifyFuel fuel h2 i = some r2 ∧
        Agree r1 r2 ∧ r1._size = h1._size ∧ Wf r1 ∧ Wf r2 := by
  intro fuel
  induction fuel with
  | zero =>
    intro h1 _ i _ _ _ hi _ hf
    omega
  | succ fuel ih =>
    intro h1 h2 i hag hwf1 hwf2 hi hs hf
    have hsm := smallest_agree h1 h2 i hag hi hs
    obtain ⟨hspec, _⟩ := smallest_spec h1 i hi hs
    simp only [minimumHeapifyFuel]
    rw [← hsm]
    by_cases hsi : smallest h1 i = i
    · rw [if_neg (by simpa using hsi), if_neg (by simpa using hsi)]
      exact ⟨h1, h2, rfl, rfl, hag, rfl, hwf1, hwf2⟩
    · rw [if_pos hsi, if_pos hsi]
      rcases hspec with hspec | ⟨hsc, hsn, _⟩
      · exact absurd hspec hsi
      obtain ⟨hsz, hrd⟩ := hag
      unfold Wf at hwf1 hwf2
      have hag1 : Agree { h1 with _elements := swapAt h1._elements i (smallest h1 i) }
          { h2 with _elements := swapAt h2._elements i (smallest h1 i) } := by
        refine ⟨hsz, ?_⟩
        intro k hk
        simp only at hk ⊢
        exact swapAt_agree h1._elements h2._elements i (smallest h1 i) (h1._size - 1)
          (by omega) (by omega) (by omega) (by omega)
          (fun k hk => hrd k (by omega)) k (by omega)
      obtain ⟨r1, r2, e1, e2, hagr, hszr, hwfr1, hwfr2⟩ :=
        ih _ _ (smallest h1 i) hag1
          (by unfold Wf; simp only [length_swapAt]; exact hwf1)
          (by unfold Wf; simp only [length_swapAt]; exact hwf2)
          hsn hs (by simp only; omega)
      exact ⟨r1, r2, e1, e2, hagr, hszr, hwfr1, hwfr2⟩

omit [LinearOrder α] in
theorem grownElements_spec (h : MinimumHeap α) (hwf : Wf h) (hs : h._size < 2 ^ 63) :
    h._size < (grownElements h).length ∧
    (grownElements h).take h._size = h._elements.take h._size ∧
    (grownElements h).length =
      (if h._size = h._elements.length then (if h._size ≠ 0 then h._size * 2 else 2)
       else h._elements.length) := by
  unfold Wf at hwf
  have hgrow : (if h._size ≠ 0 then (h._size * 2) % SIZE_MOD else 2) =
      (if h._size ≠ 0 then h._size * 2 else 2) := by
    split
    · rw [SIZE_MOD_eq]; omega
    · rfl
  unfold grownElements
  refine ⟨?_, ?_, ?_⟩
  · split
    · rw [length_resize, hgrow]; split <;> omega
    · omega
  · split
    · apply take_resize _ _ _ hwf
      rw [hgrow]; split <;> omega
    · rfl
  · split
    · rw [length_resize, hgrow]
    · rfl

theorem insert_eq_grown (h : MinimumHeap α) (x : α) :
    insert h x = (siftUpFuel (h._size + 1) ((grownElements h).set h._size x) h._size).map
      fun v => { _elements := v, _size := incr h._size } := rfl

theorem insert_agree (h1 h2 : MinimumHeap α) (x : α) (hag : Agree h1 h2) (hwf1 : Wf h1)
    (hwf2 : Wf h2) (hs : h1._size < 2 ^ 63) :
    ∃ r1 r2, insert h1 x = some r1 ∧ insert h2 x = some r2 ∧ Agree r1 r2 ∧
      r1._size = h1._size + 1 ∧ Wf r1 ∧ Wf r2 ∧
      r1._elements.length = (grownElements h1).length := by
  obtain ⟨hsz, hrd⟩ := hag
  obtain ⟨hl1, ht1, _⟩ := grownElements_spec h1 hwf1 hs
  obtain ⟨hl2, ht2, _⟩ := grownElements_spec h2 hwf2 (by omega)
  have hg : ∀ k, k ≤ h1._size →
      rd ((grownElements h1).set h1._size x) k = rd ((grownElements h2).set h1._size x) k := by
    intro k hk
    by_cases hkn : k = h1._size
    · rw [hkn, rd_set_self _ _ _ hl1, rd_set_self _ _ _ (by omega)]
    · have hlt : k < h1._size := by omega
      rw [rd_set_ne _ _ _ _ (Ne.symm hkn), rd_set_ne _ _ _ _ (Ne.symm hkn),
        rd_eq_of_take_eq _ _ _ ht1 k hlt, hrd k hlt]
      rw [hsz] at hlt
      rw [rd_eq_of_take_eq _ _ _ ht2 k hlt]
  obtain ⟨w1, w2, e1, e2, hw1, hw2, hagw⟩ :=
    siftUpFuel_agree h1._size (h1._size + 1) _ _ h1._size (le_refl _)
      (by rw [List.length_set]; exact hl1) (by rw [List.length_set]; omega) (by omega) hg
      (by omega)
  refine ⟨{ _elements := w1, _size := h1._size + 1 }, { _elements := w2, _size := h1._size + 1 },
    ?_, ?_, ⟨rfl, ?_⟩, rfl, ?_, ?_, ?_⟩
  · rw [insert_eq_grown, e1, incr_eq h1._size (by omega)]
    rfl
  · rw [insert_eq_grown, ← hsz, e2, incr_eq h1._size (by omega)]
    rfl
  · intro k hk
    exact hagw k (by simp only at hk; omega)
  · unfold Wf
    simp only [hw1, List.length_set]
    omega
  · unfold Wf
    simp only [hw2, List.length_set]
    omega
  · simp only [hw1, List.length_set]

theorem popRoot_agree [MovedFrom α] (h1 h2 : MinimumHeap α) (hag : Agree h1 h2) (hwf1 : Wf h1)
    (hwf2 : Wf h2) (h0 : 0 < h1._size) (hs : h1._size < 2 ^ 63) :
    ∃ r1 r2, popRoot h1 = some r1 ∧ popRoot h2 = some r2 ∧ Agree r1 r2 ∧
      r1._size + 1 = h1._size ∧ Wf r1 ∧ Wf r2 := by
  obtain ⟨hsz, hrd⟩ := hag
  unfold Wf at hwf1 hwf2
  have hdecr : decr h1._size = h1._size - 1 := decr_eq _ h0 (by omega)
  unfold popRoot
  rw [← hsz]
  simp only [hdecr]
  by_cases hgt : h1._size - 1 > 0
  · rw [if_pos hgt, if_pos hgt]
    have hlast1 : rd (h1._elements.set 0 (movedFrom (rd h1._elements 0))) (h1._size - 1) =
        rd h1._elements (h1._size - 1) := rd_set_ne _ _ _ _ (by omega)
    have hlast2 : rd (h2._elements.set 0 (movedFrom (rd h2._elements 0))) (h1._size - 1) =
        rd h1._elements (h1._size - 1) := by
      rw [rd_set_ne _ _ _ _ (by omega), hrd _ (by omega)]
    rw [hlast1, hlast2, List.set_set, List.set_set]
    generalize rd h1._elements (h1._size - 1) = last
    have hag2 : Agree
        { _elements := (h1._elements.set 0 last).set (h1._size - 1) (movedFrom last),
          _size := h1._size - 1 }
        { _elements := (h2._elements.set 0 last).set (h1._size - 1) (movedFrom last),
          _size := h1._size - 1 } := by
      refine ⟨rfl, ?_⟩
      intro k hk
      simp only at hk ⊢
      rw [rd_set_ne (h1._elements.set 0 last) (h1._size - 1) k _ (by omega),
        rd_set_ne (h2._elements.set 0 last) (h1._size - 1) k _ (by omega)]
      by_cases hk0 : k = 0
      · rw [hk0, rd_set_self h1._elements 0 last (by omega),
          rd_set_self h2._elements 0 last (by omega)]
      · rw [rd_set_ne h1._elements 0 k last (Ne.symm hk0),
          rd_set_ne h2._elements 0 k last (Ne.symm hk0)]
        exact hrd k (by omega)
    obtain ⟨r1, r2, e1, e2, hagr, hszr, hwfr1, hwfr2⟩ :=
      minimumHeapifyFuel_agree (h1._size - 1 + 1) _ _ 0 hag2
        (by unfold Wf; simp only [List.length_set]; omega)
        (by unfold Wf; simp only [List.length_set]; omega)
        hgt (by simp only; omega) (by simp only; omega)
    simp only at hszr
    exact ⟨r1, r2, e1, e2, hagr, by omega, hwfr1, hwfr2⟩
  · rw [if_neg hgt, if_neg hgt]
    refine ⟨_, _, rfl, rfl, ⟨rfl, ?_⟩, by simp only; omega, ?_, ?_⟩
    · intro k hk
      simp only at hk
      omega
    · unfold Wf; simp only [List.length_set]; omega
    · unfold Wf; simp only [List.length_set]; omega

theorem pop_agree [MovedFrom α] (h1 h2 : MinimumHeap α) (hag : Agree h1 h2) (hwf1 : Wf h1)
    (hwf2 : Wf h2) (hs : h1._size < 2 ^ 63) :
    ∃ r r1 r2, pop h1 = some (r, r1) ∧ pop h2 = some (r, r2) ∧ Agree r1 r2 ∧
      r1._size ≤ h1._size ∧ Wf r1 ∧ Wf r2 := by
  by_cases h0 : h1._size = 0
  · have h02 : h2._size = 0 := by rw [← hag.1]; exact h0
    refine ⟨.error .MinimumHeapUnderflowException, h1, h2, ?_, ?_, hag, le_refl _, hwf1, hwf2⟩
    · simp [pop_eq, empty, h0]
    · simp [pop_eq, empty, h02]
  · obtain ⟨r1, r2, e1, e2, hagr, hszr, hwfr1, hwfr2⟩ :=
      popRoot_agree h1 h2 hag hwf1 hwf2 (by omega) hs
    have h02 : h2._size ≠ 0 := by rw [← hag.1]; exact h0
    refine ⟨.ok (rd h1._elements 0), r1, r2, ?_, ?_, hagr, by omega, hwfr1, hwfr2⟩
    · simp [pop_eq, empty, h0, e1]
    · simp [pop_eq, empty, h02, e2]
      exact (hag.2 0 (by omega)).symm

omit [LinearOrder α] in
theorem agree_refl (h : MinimumHeap α) : Agree h h := ⟨rfl, fun _ _ => rfl⟩

omit [LinearOrder α] in
theorem subscript_eq_rd (v : List α) (i : Nat) (hi : i < v.length) :
    subscript v i = .ok (rd v i) := by
  simp [subscript, List.getElem?_eq_getElem hi, rd_eq_getElem _ _ hi]

omit [LinearOrder α] in
theorem output_agree [Streamed α] (h1 h2 : MinimumHeap α) (out : String) (hag : Agree h1 h2)
    (hs : h1._size < 2 ^ 64) :
    ∃ text, output h1 out = some (text, h1) ∧ output h2 out = some (text, h2) := by
  obtain ⟨hsz, hrd⟩ := hag
  refine ⟨_, output_spec h1 out hs, ?_⟩
  rw [output_spec h2 out (by omega), ← hsz]
  have hmap : (List.range h1._size).map (fun i => Streamed.put (rd h2._elements i))
      = (List.range h1._size).map (fun i => Streamed.put (rd h1._elements i)) := by
    apply List.map_congr_left
    intro i hi
    rw [List.mem_range] at hi
    rw [hrd i hi]
  rw [hmap]

theorem applyOp_agree [MovedFrom α] [Streamed α] (h1 h2 : MinimumHeap α) (op : Op α)
    (hag : Agree h1 h2) (hwf1 : Wf h1) (hwf2 : Wf h2) (hs : h1._size < 2 ^ 63)
    (hat : ∀ i, op = .atIndex i → i < h1._size) :
    ∃ r r1 r2, applyOp h1 op = some (r, r1) ∧ applyOp h2 op = some (r, r2) ∧ Agree r1 r2 ∧
      Wf r1 ∧ Wf r2 ∧ r1._size ≤ h1._size + 1 := by
  have hsz := hag.1
  cases op with
  | insert x =>
    obtain ⟨r1, r2, e1, e2, hagr, hszr, hwfr1, hwfr2, _⟩ := insert_agree h1 h2 x hag hwf1 hwf2 hs
    exact ⟨.done, r1, r2, by simp [applyOp, e1], by simp [applyOp, e2], hagr, hwfr1, hwfr2,
      by omega⟩
  | pop =>
    obtain ⟨r, r1, r2, e1, e2, hagr, hszr, hwfr1, hwfr2⟩ := pop_agree h1 h2 hag hwf1 hwf2 hs
    exact ⟨.value r, r1, r2, by simp [applyOp, e1], by simp [applyOp, e2], hagr, hwfr1, hwfr2,
      by omega⟩
  | top =>
    refine ⟨.value (top h1).1, h1, h2, ?_, ?_, hag, hwf1, hwf2, by omega⟩
    · simp only [applyOp]
      congr 2
      unfold top
      split <;> rfl
    · simp only [applyOp]
      have h2s : (top h2).2 = h2 := by
        unfold top
        split <;> rfl
      rw [h2s]
      congr 3
      unfold Wf at hwf1 hwf2
      by_cases h0 : h1._size = 0
      · have h02 : h2._size = 0 := by omega
        simp [top, empty, h0, h02]
      · have h02 : h2._size ≠ 0 := by omega
        simp only [top, empty, h0, h02, beq_iff_eq, if_false]
        rw [subscript_eq_rd _ _ (by omega), subscript_eq_rd _ _ (by omega),
          hag.2 0 (by omega)]
  | size =>
    refine ⟨.count (size h1), h1, h2, rfl, ?_, hag, hwf1, hwf2, by omega⟩
    simp only [applyOp, size, hsz]
  | empty =>
    refine ⟨.flag (empty h1), h1, h2, rfl, ?_, hag, hwf1, hwf2, by omega⟩
    simp only [applyOp, empty, hsz]
  | output out =>
    obtain ⟨text, e1, e2⟩ := output_agree h1 h2 out hag (by omega)
    exact ⟨.text text, h1, h2, by simp [applyOp, e1], by simp [applyOp, e2], hag, hwf1, hwf2,
      by omega⟩
  | atIndex i =>
    have hi : i < h1._size := hat i rfl
    unfold Wf at hwf1 hwf2
    refine ⟨.value (.ok (rd h1._elements i)), h1, h2, ?_, ?_, hag, hwf1, hwf2, by omega⟩
    · simp only [applyOp, atIndex]
      rw [if_neg (by omega), subscript_eq_rd _ _ (by omega)]
    · simp only [applyOp, atIndex]
      rw [if_neg (by omega), subscript_eq_rd _ _ (by omega), hag.2 i hi]

theorem runOps_agree [MovedFrom α] [Streamed α] :
    ∀ (ops : List (Op α)) (h1 h2 : MinimumHeap α), Agree h1 h2 → Wf h1 → Wf h2 →
      h1._size + ops.length < 2 ^ 63 → atBelowSize h1 ops = true →
      ∃ rs r1 r2, runOps h1 ops = some (rs, r1) ∧ runOps h2 ops = some (rs, r2) ∧
        Agree r1 r2 ∧ Wf r1 ∧ Wf r2 ∧ rs.length = ops.length := by
  intro ops
  induction ops with
  | nil =>
    intro h1 h2 hag hwf1 hwf2 _ _
    exact ⟨[], h1, h2, rfl, rfl, hag, hwf1, hwf2, rfl⟩
  | cons op ops ih =>
    intro h1 h2 hag hwf1 hwf2 hb hat
    simp only [List.length_cons] at hb
    simp only [atBelowSize, Bool.and_eq_true] at hat
    obtain ⟨hat1, hat2⟩ := hat
    obtain ⟨r, r1, r2, e1, e2, hagr, hwfr1, hwfr2, hszr⟩ :=
      applyOp_agree h1 h2 op hag hwf1 hwf2 (by omega) (by
        intro i hop
        rw [hop] at hat1
        simpa using hat1)
    rw [e1] at hat2
    obtain ⟨rs, q1, q2, f1, f2, hagq, hwfq1, hwfq2, hlen⟩ :=
      ih r1 r2 hagr hwfr1 hwfr2 (by omega) hat2
    refine ⟨r :: rs, q1, q2, ?_, ?_, hagq, hwfq1, hwfq2, by simp [hlen]⟩
    · simp only [runOps, e1, Option.some_bind, f1, Option.map_some']
    · simp only [runOps, e2, Option.some_bind, f2, Option.map_some']

end Bridge

end MinimumHeap

/-! ## The claims -/

namespace MinimumHeap

section Claims

variable {α : Type} [LinearOrder α] [Inhabited α]

/-- C1 (heap-order invariant).  Take any constructor call (capacity hint, vector
by copy, vector by move) and any sequence of `insert`, `pop ()`,
`pop (element&)` and `clear ()` calls, short enough for the element count to
stay below `2 ^ 63`.  The constructor returns a heap that satisfies the
heap-order invariant, and after every prefix of the call sequence the run has
produced a heap that satisfies it: each logically present element is `≤` its
logically present children at `2 i + 1` and `2 i + 2`. -/
theorem heap_order_invariant [MovedFrom α] (ctor : Ctor α) (calls : List (Call α))
    (hb : ctor.count + calls.length < 2 ^ 63) :
    ∃ h0, construct ctor = some h0 ∧ HeapOrdered h0 ∧
      ∀ k, ∃ h, runCalls h0 (calls.take k) = some h ∧ HeapOrdered h := by
  obtain ⟨h0, hc, hwf, ho, hsz⟩ := construct_inv ctor (by omega)
  refine ⟨h0, hc, ho, ?_⟩
  intro k
  have hk : (calls.take k).length ≤ calls.length := by
    rw [List.length_take]; omega
  obtain ⟨h, hh, _, ho1, _⟩ := runCalls_inv (calls.take k) h0 hwf ho (by omega)
  exact ⟨h, hh, ho1⟩

/-- Witness for C1: the vector 5, 4, 3, 2, 1 followed by insert 0, pop, pop into
a variable, clear, insert 7. -/
theorem heap_order_invariant_witness :
    (Ctor.copyVector [5, 4, 3, 2, 1] : Ctor Int).count +
        [Call.insert (0 : Int), Call.pop, Call.popInto 9, Call.clear, Call.insert 7].length
        < 2 ^ 63 ∧
    ∃ h0, construct (Ctor.copyVector [5, 4, 3, 2, 1] : Ctor Int) = some h0 ∧ HeapOrdered h0 ∧
      ∀ k, ∃ h, runCalls h0
        ([Call.insert (0 : Int), Call.pop, Call.popInto 9, Call.clear, Call.insert 7].take k)
          = some h ∧ HeapOrdered h :=
  ⟨by decide, heap_order_invariant _ _ (by decide)⟩

/-- C2 (`pop ()` on a non-empty heap).  On a heap with `0 < _size` that satisfies
the heap-order invariant, `pop ()` returns a value `m` that is one of the
logically present elements and is `≤` all of them, the size goes down by exactly
one, and the logical contents afterwards are the previous ones with one
occurrence of `m` removed (as multisets). -/
theorem pop_returns_minimum [MovedFrom α] (h : MinimumHeap α) (hwf : Wf h) (hs : h._size < 2 ^ 63)
    (hne : 0 < h._size) (ho : HeapOrdered h) :
    ∃ m h1, pop h = some (.ok m, h1) ∧ m ∈ contents h ∧ (∀ y, y ∈ contents h → m ≤ y) ∧
      h1._size + 1 = h._size ∧ (contents h1).Perm ((contents h).erase m) := by
  obtain ⟨h1, hh1, hsz, _, _, hperm, hmin, _⟩ := pop_spec h hwf hne hs ho
  refine ⟨rd h._elements 0, h1, hh1, ?_, hmin, hsz, ?_⟩
  · exact hperm.subset (List.mem_cons_self _ _)
  · have := hperm.erase (rd h._elements 0)
    rw [List.erase_cons_head] at this
    exact this

/-- Witness for C2: the heap 1, 2, 3, 5, 4 in a vector of eight slots. -/
theorem pop_returns_minimum_witness :
    Wf (⟨[1, 2, 3, 5, 4, 0, 0, 0], 5⟩ : MinimumHeap Int) ∧
    (⟨[1, 2, 3, 5, 4, 0, 0, 0], 5⟩ : MinimumHeap Int)._size < 2 ^ 63 ∧
    0 < (⟨[1, 2, 3, 5, 4, 0, 0, 0], 5⟩ : MinimumHeap Int)._size ∧
    HeapOrdered (⟨[1, 2, 3, 5, 4, 0, 0, 0], 5⟩ : MinimumHeap Int) ∧
    ∃ m h1, pop (⟨[1, 2, 3, 5, 4, 0, 0, 0], 5⟩ : MinimumHeap Int) = some (.ok m, h1) ∧
      m ∈ contents (⟨[1, 2, 3, 5, 4, 0, 0, 0], 5⟩ : MinimumHeap Int) ∧
      (∀ y, y ∈ contents (⟨[1, 2, 3, 5, 4, 0, 0, 0], 5⟩ : MinimumHeap Int) → m ≤ y) ∧
      h1._size + 1 = (⟨[1, 2, 3, 5, 4, 0, 0, 0], 5⟩ : MinimumHeap Int)._size ∧
      (contents h1).Perm
        ((contents (⟨[1, 2, 3, 5, 4, 0, 0, 0], 5⟩ : MinimumHeap Int)).erase m) :=
  ⟨by decide, by decide, by decide, by decide,
    pop_returns_minimum _ (by decide) (by decide) (by decide) (by decide)⟩

/-- C3 (`top ()` on a non-empty heap).  On a heap with `0 < _size` that satisfies
the heap-order invariant, `top ()` returns the element stored at index 0 of the
backing vector, that element is `≤` every logically present element, and the
heap after the call is the heap before it (same elements, same size). -/
theorem top_is_minimum (h : MinimumHeap α) (hwf : Wf h) (hne : 0 < h._size)
    (ho : HeapOrdered h) :
    ∃ m, top h = (.ok m, h) ∧ h._elements[0]? = some m ∧ ∀ y, y ∈ contents h → m ≤ y := by
  unfold Wf at hwf
  have hl : 0 < h._elements.length := by omega
  have hne0 : h._size ≠ 0 := by omega
  refine ⟨rd h._elements 0, ?_, ?_, ?_⟩
  · simp [top, empty, hne0, subscript, List.getElem?_eq_getElem hl, rd_eq_getElem _ _ hl]
  · rw [rd_eq_getElem _ _ hl, List.getElem?_eq_getElem hl]
  · intro y hy
    unfold contents at hy
    rw [mem_take_iff_rd _ _ hwf] at hy
    obtain ⟨j, hj, rfl⟩ := hy
    exact root_le_of_upFrom _ _ ((heapOrdered_iff_upFrom h).mp ho) j hj

/-- Witness for C3: the heap 1, 2, 3, 5, 4 in a vector of eight slots. -/
theorem top_is_minimum_witness :
    Wf (⟨[1, 2, 3, 5, 4, 0, 0, 0], 5⟩ : MinimumHeap Int) ∧
    0 < (⟨[1, 2, 3, 5, 4, 0, 0, 0], 5⟩ : MinimumHeap Int)._size ∧
    HeapOrdered (⟨[1, 2, 3, 5, 4, 0, 0, 0], 5⟩ : MinimumHeap Int) ∧
    ∃ m, top (⟨[1, 2, 3, 5, 4, 0, 0, 0], 5⟩ : MinimumHeap Int)
        = (.ok m, ⟨[1, 2, 3, 5, 4, 0, 0, 0], 5⟩) ∧
      (⟨[1, 2, 3, 5, 4, 0, 0, 0], 5⟩ : MinimumHeap Int)._elements[0]? = some m ∧
      ∀ y, y ∈ contents (⟨[1, 2, 3, 5, 4, 0, 0, 0], 5⟩ : MinimumHeap Int) → m ≤ y :=
  ⟨by decide, by decide, by decide, top_is_minimum _ (by decide) (by decide) (by decide)⟩

/-- C4 (`insert`).  On a heap that satisfies the heap-order invariant, whatever
the length of its backing vector (longer than `_size`, equal to it, or zero),
`insert (x)` returns, the size goes up by exactly one, the logical contents
afterwards are the previous ones plus one occurrence of `x` (as multisets), and
the heap-order invariant holds again.  The backing vector is lengthened exactly
when it was full: to 2 from size 0, to twice the size otherwise. -/
theorem insert_adds_one (h : MinimumHeap α) (x : α) (hwf : Wf h) (hs : h._size < 2 ^ 63)
    (ho : HeapOrdered h) :
    ∃ h1, insert h x = some h1 ∧ h1._size = h._size + 1 ∧
      (contents h1).Perm (x :: contents h) ∧ HeapOrdered h1 ∧
      h1._elements.length =
        (if h._size = h._elements.length then (if h._size ≠ 0 then h._size * 2 else 2)
         else h._elements.length) := by
  obtain ⟨h1, hh1, hsz, _, ho1, hperm, hcap⟩ := insert_spec h x hwf hs ho
  exact ⟨h1, hh1, hsz, hperm, ho1, hcap⟩

/-- Witness for C4: a full backing vector (the heap 2, 3, 4, 5 in four slots)
receives 1. -/
theorem insert_adds_one_witness :
    Wf (⟨[2, 3, 4, 5], 4⟩ : MinimumHeap Int) ∧
    (⟨[2, 3, 4, 5], 4⟩ : MinimumHeap Int)._size < 2 ^ 63 ∧
    HeapOrdered (⟨[2, 3, 4, 5], 4⟩ : MinimumHeap Int) ∧
    ∃ h1, insert (⟨[2, 3, 4, 5], 4⟩ : MinimumHeap Int) 1 = some h1 ∧
      h1._size = (⟨[2, 3, 4, 5], 4⟩ : MinimumHeap Int)._size + 1 ∧
      (contents h1).Perm (1 :: contents (⟨[2, 3, 4, 5], 4⟩ : MinimumHeap Int)) ∧
      HeapOrdered h1 ∧
      h1._elements.length =
        (if (⟨[2, 3, 4, 5], 4⟩ : MinimumHeap Int)._size
            = (⟨[2, 3, 4, 5], 4⟩ : MinimumHeap Int)._elements.length then
          (if (⟨[2, 3, 4, 5], 4⟩ : MinimumHeap Int)._size ≠ 0 then
            (⟨[2, 3, 4, 5], 4⟩ : MinimumHeap Int)._size * 2 else 2)
         else (⟨[2, 3, 4, 5], 4⟩ : MinimumHeap Int)._elements.length) :=
  ⟨by decide, by decide, by decide, insert_adds_one _ 1 (by decide) (by decide) (by decide)⟩

/-- C5 (construction from a vector).  For every vector `v` of fewer than `2 ^ 63`
elements, the empty and the one-element vector included, the heap built from `v`
by the copying constructor and the heap built by the moving constructor each
have size `v.length`, have logical contents that are a permutation of `v`, and
satisfy the heap-order invariant. -/
theorem from_vector_is_heap (v : List α) (hl : v.length < 2 ^ 63) :
    (∃ h, mk_vector_copy v = some h ∧ h._size = v.length ∧ (contents h).Perm v ∧
      HeapOrdered h) ∧
    (∃ h, mk_vector_move v = some h ∧ h._size = v.length ∧ (contents h).Perm v ∧
      HeapOrdered h) := by
  obtain ⟨h, hh, hsz, _, ho, hperm⟩ := mk_vector_copy_spec v hl
  obtain ⟨h', hh', hsz', _, ho', hperm'⟩ := mk_vector_move_spec v hl
  exact ⟨⟨h, hh, hsz, hperm, ho⟩, ⟨h', hh', hsz', hperm', ho'⟩⟩

/-- Witness for C5: the vector 5, 4, 3, 2, 1 of the tests in main.cpp. -/
theorem from_vector_is_heap_witness :
    ([5, 4, 3, 2, 1] : List Int).length < 2 ^ 63 ∧
    (∃ h, mk_vector_copy ([5, 4, 3, 2, 1] : List Int) = some h ∧
      h._size = ([5, 4, 3, 2, 1] : List Int).length ∧
      (contents h).Perm [5, 4, 3, 2, 1] ∧ HeapOrdered h) ∧
    (∃ h, mk_vector_move ([5, 4, 3, 2, 1] : List Int) = some h ∧
      h._size = ([5, 4, 3, 2, 1] : List Int).length ∧
      (contents h).Perm [5, 4, 3, 2, 1] ∧ HeapOrdered h) :=
  ⟨by decide, from_vector_is_heap _ (by decide)⟩

/-- C6 (sortedness of drain).  Insert the elements of any list `xs` (fewer than
`2 ^ 63` of them), one at a time and in the order given, into an empty heap; then
pop until `empty ()` holds.  The loop ends with an empty heap, no `pop` throws,
and the values popped are the elements of `xs` in non-decreasing order: a sorted
permutation of `xs`. -/
theorem drain_sorted [MovedFrom α] (h0 : MinimumHeap α) (xs : List α) (hwf : Wf h0)
    (he : h0._size = 0) (hl : xs.length < 2 ^ 63) :
    ∃ h out hEnd, insertAll h0 xs = some h ∧ drain h = some (.ok out, hEnd) ∧
      hEnd._size = 0 ∧ out.Sorted (· ≤ ·) ∧ out.Perm xs :=
  insertAll_drain_spec h0 xs hwf he hl

/-- Witness for C6: the two insert-then-drain tests of main.cpp.  Inserting
5, 4, 3, 2, 1 and draining writes 1, 2, 3, 4, 5; inserting "This", "is", "just",
"a", "test" and draining writes "This", "a", "is", "just", "test". -/
theorem drain_sorted_witness :
    (Wf (mk_default : MinimumHeap Int) ∧ (mk_default : MinimumHeap Int)._size = 0 ∧
      ([5, 4, 3, 2, 1] : List Int).length < 2 ^ 63 ∧
      ∃ h hEnd, insertAll (mk_default : MinimumHeap Int) [5, 4, 3, 2, 1] = some h ∧
        drain h = some (.ok [1, 2, 3, 4, 5], hEnd)) ∧
    (Wf (mk_default : MinimumHeap String) ∧ (mk_default : MinimumHeap String)._size = 0 ∧
      (["This", "is", "just", "a", "test"] : List String).length < 2 ^ 63 ∧
      ∃ h hEnd,
        insertAll (mk_default : MinimumHeap String) ["This", "is", "just", "a", "test"]
          = some h ∧
        drain h = some (.ok ["This", "a", "is", "just", "test"], hEnd)) := by
  refine ⟨⟨by decide, by decide, by decide, ?_⟩, ⟨by decide, by decide, by decide, ?_⟩⟩
  · obtain ⟨h, out, hEnd, hh, hd, _, hsorted, hperm⟩ :=
      drain_sorted (mk_default : MinimumHeap Int) [5, 4, 3, 2, 1] (by decide) (by decide)
        (by decide)
    have : out = [1, 2, 3, 4, 5] :=
      sorted_perm_unique out _ _ hsorted hperm (by decide) (by decide)
    rw [this] at hd
    exact ⟨h, hEnd, hh, hd⟩
  · have hinst : (String.decidableLT : DecidableRel fun a b : String => a < b)
        = (instDecidableLt_mathlib : DecidableRel fun a b : String => a < b) :=
      Subsingleton.elim _ _
    rw [hinst]
    obtain ⟨h, out, hEnd, hh, hd, _, hsorted, hperm⟩ :=
      drain_sorted (mk_default : MinimumHeap String) ["This", "is", "just", "a", "test"]
        (by decide) (by decide) (by decide)
    have : out = ["This", "a", "is", "just", "test"] :=
      sorted_perm_unique out _ _ hsorted hperm test_strings_sorted (by decide)
    rw [this] at hd
    exact ⟨h, hEnd, hh, hd⟩

/-- C7, as stated for every vector, fails on the code when the element type is
only strictly weakly ordered.  For records compared by key alone, the vector
(2, a), (2, b), (1, c), (1, d) drains as (1, d), (1, c), (2, b), (2, a) after the
bulk constructor and as (1, c), (1, d), (2, a), (2, b) after four inserts into a
default-constructed heap: two different sequences. -/
theorem bulk_build_order_counterexample :
    ((mk_vector_copy [⟨2, 'a'⟩, ⟨2, 'b'⟩, ⟨1, 'c'⟩, ⟨1, 'd'⟩] :
        Option (MinimumHeap Keyed)).bind drain).map Prod.fst
      = some (.ok [⟨1, 'd'⟩, ⟨1, 'c'⟩, ⟨2, 'b'⟩, ⟨2, 'a'⟩]) ∧
    ((insertAll (mk_default : MinimumHeap Keyed)
        [⟨2, 'a'⟩, ⟨2, 'b'⟩, ⟨1, 'c'⟩, ⟨1, 'd'⟩]).bind drain).map Prod.fst
      = some (.ok [⟨1, 'c'⟩, ⟨1, 'd'⟩, ⟨2, 'a'⟩, ⟨2, 'b'⟩]) ∧
    ((mk_vector_copy [⟨2, 'a'⟩, ⟨2, 'b'⟩, ⟨1, 'c'⟩, ⟨1, 'd'⟩] :
        Option (MinimumHeap Keyed)).bind drain).map Prod.fst
      ≠ ((insertAll (mk_default : MinimumHeap Keyed)
        [⟨2, 'a'⟩, ⟨2, 'b'⟩, ⟨1, 'c'⟩, ⟨1, 'd'⟩]).bind drain).map Prod.fst := by
  decide

/-- C7, amended (bulk-build equivalence).  For every vector `v` of fewer than
`2 ^ 63` elements of a totally ordered type (a linear order: elements that are
equivalent under the ordering are equal), draining the heap built from `v` by
either vector constructor and draining the heap obtained by inserting the
elements of `v` one at a time into an empty heap write the same sequence, which
is the sorted permutation of `v`. -/
theorem bulk_build_equivalence [MovedFrom α] (h0 : MinimumHeap α) (v : List α) (hwf : Wf h0)
    (he : h0._size = 0) (hl : v.length < 2 ^ 63) :
    ∃ out,
      (∃ hb hEnd, mk_vector_copy v = some hb ∧ drain hb = some (.ok out, hEnd)) ∧
      (∃ hb hEnd, mk_vector_move v = some hb ∧ drain hb = some (.ok out, hEnd)) ∧
      (∃ hi hEnd, insertAll h0 v = some hi ∧ drain hi = some (.ok out, hEnd)) ∧
      out.Sorted (· ≤ ·) ∧ out.Perm v := by
  obtain ⟨hb, out, hEnd, hc, hm, hd, _, hsorted, hperm⟩ := mk_vector_drain_spec v hl
  obtain ⟨hi, out2, hEnd2, hh2, hd2, _, hsorted2, hperm2⟩ :=
    insertAll_drain_spec h0 v hwf he hl
  have heq : out2 = out := sorted_perm_unique out2 out v hsorted2 hperm2 hsorted hperm
  rw [heq] at hd2
  exact ⟨out, ⟨hb, hEnd, hc, hd⟩, ⟨hb, hEnd, hm, hd⟩, ⟨hi, hEnd2, hh2, hd2⟩, hsorted, hperm⟩

/-- Witness for C7: the vector 5, 4, 3, 2, 1 of the tests in main.cpp, against
inserts into a default-constructed heap.  The two heaps are laid out
differently (1, 2, 3, 5, 4 against 1, 2, 4, 5, 3). -/
theorem bulk_build_equivalence_witness :
    Wf (mk_default : MinimumHeap Int) ∧ (mk_default : MinimumHeap Int)._size = 0 ∧
    ([5, 4, 3, 2, 1] : List Int).length < 2 ^ 63 ∧
    (∃ out,
      (∃ hb hEnd, mk_vector_copy ([5, 4, 3, 2, 1] : List Int) = some hb ∧
        drain hb = some (.ok out, hEnd)) ∧
      (∃ hb hEnd, mk_vector_move ([5, 4, 3, 2, 1] : List Int) = some hb ∧
        drain hb = some (.ok out, hEnd)) ∧
      (∃ hi hEnd, insertAll (mk_default : MinimumHeap Int) [5, 4, 3, 2, 1] = some hi ∧
        drain hi = some (.ok out, hEnd)) ∧
      out.Sorted (· ≤ ·) ∧ out.Perm [5, 4, 3, 2, 1]) ∧
    (mk_vector_copy ([5, 4, 3, 2, 1] : List Int)).map contents = some [1, 2, 3, 5, 4] ∧
    (insertAll (mk_default : MinimumHeap Int) [5, 4, 3, 2, 1]).map contents
      = some [1, 2, 4, 5, 3] :=
  ⟨by decide, by decide, by decide,
    bulk_build_equivalence _ _ (by decide) (by decide) (by decide), by decide, by decide⟩

/-- C8 (indexed read at `index == size`), evaluated on the code.  `at (index)`
throws only when `index > _size`, so `at (size ())` is not rejected.  On a
default-constructed `MinimumHeap<int>` (size 0, two value-initialised slots)
`at (0)` returns the slot value 0.  On the heap built from the vector
5, 4, 3, 2, 1 (size 5, five slots) `at (5)` passes the check and subscripts the
vector outside its range.  `operator[]` behaves the same. -/
theorem at_size_is_not_rejected :
    atIndex (mk_default : MinimumHeap Int) 0 = (.ok 0, mk_default) ∧
    index (mk_default : MinimumHeap Int) 0 = (.ok 0, mk_default) ∧
    (mk_vector_copy ([5, 4, 3, 2, 1] : List Int)).map (fun h => (h._size, (atIndex h 5).1))
      = some (5, .error .vectorOutOfRange) ∧
    (mk_vector_copy ([5, 4, 3, 2, 1] : List Int)).map (fun h => (atIndex h 6).1)
      = some (.error .MinimumHeapIndexOutOfBoundsException) := by
  decide

/-- C9 (Underflow).  On every heap (`_size` within the backing vector and below
`2 ^ 63`), each of `top ()`, `pop ()` and `pop (element&)` throws
`MinimumHeapUnderflowException` if and only if `_size == 0`, and on a heap with
`_size > 0` each of them returns without throwing. -/
theorem underflow_iff_empty [MovedFrom α] (h : MinimumHeap α) (hwf : Wf h)
    (hs : h._size < 2 ^ 63) :
    ((top h).1 = .error .MinimumHeapUnderflowException ↔ h._size = 0) ∧
    ((∃ h1, pop h = some (.error .MinimumHeapUnderflowException, h1)) ↔ h._size = 0) ∧
    (∀ x, (∃ x1 h1, popInto h x = some (.error .MinimumHeapUnderflowException, x1, h1)) ↔
      h._size = 0) ∧
    (0 < h._size →
      (∃ m, (top h).1 = .ok m) ∧ (∃ m h1, pop h = some (.ok m, h1)) ∧
      ∀ x, ∃ x1 h1, popInto h x = some (.ok (), x1, h1)) := by
  by_cases h0 : h._size = 0
  · refine ⟨?_, ?_, ?_, fun hpos => absurd h0 (by omega)⟩
    · simp [top, empty, h0]
    · simp [pop_eq, empty, h0]
    · intro x
      simp [popInto_eq, empty, h0]
  · obtain ⟨h1, hh1, _, _⟩ := popRoot_total h hwf (by omega) hs
    have hl : 0 < h._elements.length := by
      unfold Wf at hwf
      omega
    refine ⟨?_, ?_, ?_, fun _ => ⟨?_, ?_, ?_⟩⟩
    · simp [top, empty, h0, subscript, List.getElem?_eq_getElem hl]
    · simp [pop_eq, empty, h0, hh1]
    · intro x
      simp [popInto_eq, empty, h0, hh1]
    · exact ⟨h._elements[0], by simp [top, empty, h0, subscript, List.getElem?_eq_getElem hl]⟩
    · exact ⟨rd h._elements 0, h1, by simp [pop_eq, empty, h0, hh1]⟩
    · intro x
      exact ⟨rd h._elements 0, h1, by simp [popInto_eq, empty, h0, hh1]⟩

/-- Witness for C9: the heap 1, 2, 3, 5, 4 in a vector of eight slots. -/
theorem underflow_iff_empty_witness :
    Wf (⟨[1, 2, 3, 5, 4, 0, 0, 0], 5⟩ : MinimumHeap Int) ∧
    (⟨[1, 2, 3, 5, 4, 0, 0, 0], 5⟩ : MinimumHeap Int)._size < 2 ^ 63 ∧
    ((∃ m, (top (⟨[1, 2, 3, 5, 4, 0, 0, 0], 5⟩ : MinimumHeap Int)).1 = .ok m) ∧
      (∃ m h1, pop (⟨[1, 2, 3, 5, 4, 0, 0, 0], 5⟩ : MinimumHeap Int) = some (.ok m, h1)) ∧
      ∀ x, ∃ x1 h1,
        popInto (⟨[1, 2, 3, 5, 4, 0, 0, 0], 5⟩ : MinimumHeap Int) x = some (.ok (), x1, h1)) :=
  ⟨by decide, by decide,
    (underflow_iff_empty (⟨[1, 2, 3, 5, 4, 0, 0, 0], 5⟩ : MinimumHeap Int) (by decide)
      (by decide)).2.2.2 (by decide)⟩

/-- C10 (failure atomicity).  Whenever `top ()`, `at (index)`, `pop ()` or
`pop (element&)` ends in a failure, the heap after the call is the heap before
it, field by field, and for `pop (element&)` the caller's variable keeps its
value.  Hence the heap-order invariant is kept and a following `insert` or
`pop` gives what it would have given without the failed call. -/
theorem failure_atomicity [MovedFrom α] (h : MinimumHeap α) :
    (∀ e, (top h).1 = .error e → (top h).2 = h) ∧
    (∀ i e, (atIndex h i).1 = .error e → (atIndex h i).2 = h) ∧
    (∀ e h1, pop h = some (.error e, h1) →
      h1 = h ∧ (HeapOrdered h → HeapOrdered h1) ∧ (∀ y, insert h1 y = insert h y) ∧
        pop h1 = pop h) ∧
    (∀ x e x1 h1, popInto h x = some (.error e, x1, h1) →
      x1 = x ∧ h1 = h ∧ (HeapOrdered h → HeapOrdered h1) ∧ (∀ y, insert h1 y = insert h y) ∧
        pop h1 = pop h) := by
  refine ⟨?_, ?_, ?_, ?_⟩
  · intro e _
    unfold top
    split <;> rfl
  · intro i e _
    unfold atIndex
    split <;> rfl
  · intro e h1 hp
    have : h1 = h := by
      rw [pop_eq] at hp
      split at hp
      · simp only [Option.some.injEq, Prod.mk.injEq] at hp
        exact hp.2.symm
      · cases hr : popRoot h with
        | none => simp [hr] at hp
        | some r => simp [hr] at hp
    subst this
    exact ⟨rfl, id, fun _ => rfl, rfl⟩
  · intro x e x1 h1 hp
    have : x1 = x ∧ h1 = h := by
      rw [popInto_eq] at hp
      split at hp
      · simp only [Option.some.injEq, Prod.mk.injEq] at hp
        exact ⟨hp.2.1.symm, hp.2.2.symm⟩
      · cases hr : popRoot h with
        | none => simp [hr] at hp
        | some r => simp [hr] at hp
    obtain ⟨rfl, rfl⟩ := this
    exact ⟨rfl, rfl, id, fun _ => rfl, rfl⟩

/-- Witness for C10: `pop ()` and `pop (element&)` with the variable holding 9,
on a default-constructed heap; both throw and leave heap and variable as they
were. -/
theorem failure_atomicity_witness :
    pop (mk_default : MinimumHeap Int)
      = some (.error .MinimumHeapUnderflowException, mk_default) ∧
    popInto (mk_default : MinimumHeap Int) 9
      = some (.error .MinimumHeapUnderflowException, 9, mk_default) ∧
    ((mk_default : MinimumHeap Int) = mk_default ∧
      (HeapOrdered (mk_default : MinimumHeap Int) → HeapOrdered (mk_default : MinimumHeap Int)) ∧
      (∀ y, insert (mk_default : MinimumHeap Int) y = insert mk_default y) ∧
      pop (mk_default : MinimumHeap Int) = pop mk_default) ∧
    ((9 : Int) = 9 ∧ (mk_default : MinimumHeap Int) = mk_default ∧
      (HeapOrdered (mk_default : MinimumHeap Int) → HeapOrdered (mk_default : MinimumHeap Int)) ∧
      (∀ y, insert (mk_default : MinimumHeap Int) y = insert mk_default y) ∧
      pop (mk_default : MinimumHeap Int) = pop mk_default) :=
  ⟨by decide, by decide,
    (failure_atomicity (mk_default : MinimumHeap Int)).2.2.1
      .MinimumHeapUnderflowException mk_default (by decide),
    (failure_atomicity (mk_default : MinimumHeap Int)).2.2.2 9
      .MinimumHeapUnderflowException 9 mk_default (by decide)⟩

/-- C11 (round-trip count).  Insert any `n` elements (`n < 2 ^ 63`) into an empty
heap.  After the first `k` inserts `size ()` is `k`, so it is `n` at the end.
Then each of `k ≤ n` successive calls of `pop ()` returns a value, and after
them `size ()` is `n - k`, so every pop lowers it by exactly one; `empty ()`
holds after the `n`-th pop and not before; the `(n + 1)`-th pop throws
`MinimumHeapUnderflowException`.  On every heap `empty ()` holds exactly when
`size ()` is 0. -/
theorem round_trip_count [MovedFrom α] (h0 : MinimumHeap α) (xs : List α) (hwf : Wf h0)
    (he : h0._size = 0) (hl : xs.length < 2 ^ 63) :
    (∀ k, k ≤ xs.length → ∃ hk, insertAll h0 (xs.take k) = some hk ∧ size hk = k) ∧
    (∃ h, insertAll h0 xs = some h ∧ size h = xs.length ∧
      (∀ k, k ≤ xs.length → ∃ (outs : List α) (hk : MinimumHeap α), popN k h = some (outs.map Except.ok, hk) ∧
        outs.length = k ∧ size hk + k = xs.length ∧ (empty hk = true ↔ k = xs.length)) ∧
      (∃ (outs : List α) (hn : MinimumHeap α), popN (xs.length + 1) h
          = some (outs.map Except.ok ++ [.error .MinimumHeapUnderflowException], hn) ∧
        outs.length = xs.length ∧ empty hn = true)) ∧
    (∀ h : MinimumHeap α, empty h = true ↔ size h = 0) := by
  have ho0 : HeapOrdered h0 := by
    intro i hi
    omega
  refine ⟨?_, ?_, ?_⟩
  · intro k hk
    have hlen : (xs.take k).length = k := by
      rw [List.length_take]; omega
    obtain ⟨h1, hh1, _, _, hsz, _⟩ := insertAll_spec (xs.take k) h0 hwf ho0 (by omega)
    exact ⟨h1, hh1, by unfold size; omega⟩
  · obtain ⟨h, hh, hwf1, ho1, hsz, _⟩ := insertAll_spec xs h0 hwf ho0 (by omega)
    refine ⟨h, hh, by unfold size; omega, ?_, ?_⟩
    · intro k hk
      obtain ⟨outs, hk1, hp, hlen, hszk, _, _⟩ := popN_spec k h hwf1 ho1 (by omega) (by omega)
      refine ⟨outs, hk1, hp, hlen, by unfold size; omega, ?_⟩
      unfold empty
      simp only [beq_iff_eq]
      omega
    · obtain ⟨outs, hn, hp, hlen, hszn⟩ :=
        popN_underflow xs.length h hwf1 ho1 (by omega) (by omega)
      exact ⟨outs, hn, hp, hlen, by simp [empty, hszn]⟩
  · intro h
    simp [empty, size]

/-- Witness for C11: the five inserts 5, 4, 3, 2, 1 of main.cpp into a
default-constructed heap. -/
theorem round_trip_count_witness :
    Wf (mk_default : MinimumHeap Int) ∧ (mk_default : MinimumHeap Int)._size = 0 ∧
    ([5, 4, 3, 2, 1] : List Int).length < 2 ^ 63 ∧
    ∃ h, insertAll (mk_default : MinimumHeap Int) [5, 4, 3, 2, 1] = some h ∧
      size h = ([5, 4, 3, 2, 1] : List Int).length ∧
      (∀ k, k ≤ ([5, 4, 3, 2, 1] : List Int).length →
        ∃ (outs : List Int) (hk : MinimumHeap Int),
          popN k h = some (outs.map Except.ok, hk) ∧
          outs.length = k ∧ size hk + k = ([5, 4, 3, 2, 1] : List Int).length ∧
          (empty hk = true ↔ k = ([5, 4, 3, 2, 1] : List Int).length)) ∧
      (∃ (outs : List Int) (hn : MinimumHeap Int),
        popN (([5, 4, 3, 2, 1] : List Int).length + 1) h
          = some (outs.map Except.ok ++ [.error .MinimumHeapUnderflowException], hn) ∧
        outs.length = ([5, 4, 3, 2, 1] : List Int).length ∧ empty hn = true) :=
  ⟨by decide, by decide, by decide,
    (round_trip_count (mk_default : MinimumHeap Int) [5, 4, 3, 2, 1] (by decide) (by decide)
      (by decide)).2.1⟩

/-- C12 (capacity constructor).  For every capacity hint `c`, 0 and the default 2
included, the constructor returns a heap with `size () == 0` and `empty ()`
true; it satisfies the heap-order invariant; `top ()`, `pop ()` and
`pop (element&)` throw `MinimumHeapUnderflowException` and leave it as it is.
The backing vector has `c` value-initialised slots, none of which is a logically
present element.  The default constructor call is the case `c = 2`. -/
theorem capacity_constructor_empty [MovedFrom α] (c : Nat) :
    size (mk_capacity c : MinimumHeap α) = 0 ∧
    empty (mk_capacity c : MinimumHeap α) = true ∧
    HeapOrdered (mk_capacity c : MinimumHeap α) ∧
    top (mk_capacity c : MinimumHeap α)
      = (.error .MinimumHeapUnderflowException, mk_capacity c) ∧
    pop (mk_capacity c : MinimumHeap α)
      = some (.error .MinimumHeapUnderflowException, mk_capacity c) ∧
    (∀ x, popInto (mk_capacity c : MinimumHeap α) x
      = some (.error .MinimumHeapUnderflowException, x, mk_capacity c)) ∧
    contents (mk_capacity c : MinimumHeap α) = [] ∧
    (mk_capacity c : MinimumHeap α)._elements = List.replicate c default ∧
    (mk_default : MinimumHeap α) = mk_capacity 2 := by
  refine ⟨rfl, rfl, ?_, rfl, rfl, fun _ => rfl, rfl, rfl, rfl⟩
  intro i hi
  simp [mk_capacity] at hi

/-- C13 (`clear ()`).  For every heap, `clear ()` returns a heap with
`size () == 0`, `empty ()` true and an empty backing vector; on it `top ()` and
`pop ()` throw `MinimumHeapUnderflowException`; and an `insert (x)` that
follows returns a heap of size 1 whose `top ()` is `x`. -/
theorem clear_resets [MovedFrom α] (h : MinimumHeap α) :
    size (clear h) = 0 ∧ empty (clear h) = true ∧ (clear h)._elements = [] ∧
    HeapOrdered (clear h) ∧
    top (clear h) = (.error .MinimumHeapUnderflowException, clear h) ∧
    pop (clear h) = some (.error .MinimumHeapUnderflowException, clear h) ∧
    ∀ x, ∃ h1, insert (clear h) x = some h1 ∧ size h1 = 1 ∧ top h1 = (.ok x, h1) ∧
      contents h1 = [x] := by
  refine ⟨rfl, rfl, rfl, ?_, rfl, rfl, ?_⟩
  · intro i hi
    simp [clear] at hi
  · intro x
    refine ⟨{ _elements := [x, default], _size := 1 }, ?_, rfl, rfl, rfl⟩
    simp [insert, clear, resize, siftUpFuel, incr, SIZE_MOD]

/-- C14, as stated, fails on the code: the text starts with the word
`MinimumHeap`, not `MinHeap`.  A default-constructed `MinimumHeap<int>` is
written as `MinimumHeap []`. -/
theorem rendering_word_counterexample :
    (output (mk_default : MinimumHeap Int) "").map Prod.fst = some "MinimumHeap []" ∧
    (output (mk_default : MinimumHeap Int) "").map Prod.fst ≠ some "MinHeap []" := by
  decide

omit [LinearOrder α] in
/-- C14, amended (textual rendering).  For every heap, `output` on an empty
stream leaves the text `MinimumHeap [e0, e1, ..., en-1]`: the word
`MinimumHeap`, a space, and between square brackets the logically present
elements, in the order in which they lie in the backing vector, separated by a
comma and a space.  `operator<<` writes the same text and an empty heap is
written as `MinimumHeap []`. -/
theorem rendering_is_array_dump [Streamed α] (h : MinimumHeap α) (hwf : Wf h)
    (hs : h._size < 2 ^ 64) :
    (output h "").map Prod.fst
      = some ("MinimumHeap [" ++ ", ".intercalate ((contents h).map Streamed.put) ++ "]") ∧
    (operator_lshift "" h).map Prod.fst = (output h "").map Prod.fst ∧
    (h._size = 0 → (output h "").map Prod.fst = some "MinimumHeap []") := by
  have hmap : (List.range h._size).map (fun i => Streamed.put (rd h._elements i))
      = (contents h).map Streamed.put := by
    rw [← range_map_rd_eq_contents h hwf, List.map_map]
    rfl
  have hout := output_spec h "" hs
  rw [hmap, String.empty_append] at hout
  refine ⟨by rw [hout]; rfl, rfl, ?_⟩
  intro h0
  rw [hout]
  have hc : contents h = [] := by
    unfold contents
    rw [h0, List.take_zero]
  rw [hc]
  rfl

/-- Witness for C14: the heap 1, 2, 3, 5, 4 (eight slots) is written in array
order, which is not the sorted order. -/
theorem rendering_is_array_dump_witness :
    Wf (⟨[1, 2, 3, 5, 4, 0, 0, 0], 5⟩ : MinimumHeap Int) ∧
    (⟨[1, 2, 3, 5, 4, 0, 0, 0], 5⟩ : MinimumHeap Int)._size < 2 ^ 64 ∧
    (output (⟨[1, 2, 3, 5, 4, 0, 0, 0], 5⟩ : MinimumHeap Int) "").map Prod.fst
      = some "MinimumHeap [1, 2, 3, 5, 4]" :=
  ⟨by decide, by decide,
    (rendering_is_array_dump (⟨[1, 2, 3, 5, 4, 0, 0, 0], 5⟩ : MinimumHeap Int) (by decide)
      (by decide)).1.trans (by decide)⟩

omit [LinearOrder α] in
/-- C15 (`output` and `operator<<`).  For every heap and every stream, `output`
appends to the stream exactly `MinimumHeap [`, then the elements at indices
0, 1, ..., `_size - 1` in that order with `, ` between neighbours, then `]`, and
hands back the heap as it was; `operator<<` does the same.  The text does not
depend on what is stored at or beyond index `_size`: two heaps that agree on
`_size` and on the elements below it are written alike. -/
theorem output_writes_exactly [Streamed α] (h : MinimumHeap α) (out : String)
    (hs : h._size < 2 ^ 64) :
    output h out = some (out ++ "MinimumHeap [" ++
      ", ".intercalate ((List.range h._size).map fun i => Streamed.put (rd h._elements i))
      ++ "]", h) ∧
    operator_lshift out h = output h out ∧
    (∀ h2 : MinimumHeap α, h2._size = h._size →
      (∀ i, i < h._size → rd h2._elements i = rd h._elements i) →
      (output h2 out).map Prod.fst = (output h out).map Prod.fst) := by
  refine ⟨output_spec h out hs, rfl, ?_⟩
  intro h2 hsz hrd
  rw [output_spec h out hs, output_spec h2 out (by omega), hsz]
  have hmap : (List.range h._size).map (fun i => Streamed.put (rd h2._elements i))
      = (List.range h._size).map (fun i => Streamed.put (rd h._elements i)) := by
    apply List.map_congr_left
    intro i hi
    rw [List.mem_range] at hi
    rw [hrd i hi]
  rw [hmap]
  rfl

/-- Witness for C15: a heap holding 1, 2, 3, 4, 5 in that array order, with
three stale slots behind them, is written as `MinimumHeap [1, 2, 3, 4, 5]`. -/
theorem output_writes_exactly_witness :
    (⟨[1, 2, 3, 4, 5, 7, 7, 7], 5⟩ : MinimumHeap Int)._size < 2 ^ 64 ∧
    output (⟨[1, 2, 3, 4, 5, 7, 7, 7], 5⟩ : MinimumHeap Int) ""
      = some ("MinimumHeap [1, 2, 3, 4, 5]", ⟨[1, 2, 3, 4, 5, 7, 7, 7], 5⟩) ∧
    operator_lshift "" (⟨[1, 2, 3, 4, 5, 7, 7, 7], 5⟩ : MinimumHeap Int)
      = some ("MinimumHeap [1, 2, 3, 4, 5]", ⟨[1, 2, 3, 4, 5, 7, 7, 7], 5⟩) :=
  ⟨by decide,
    (output_writes_exactly (⟨[1, 2, 3, 4, 5, 7, 7, 7], 5⟩ : MinimumHeap Int) "" (by decide)).1.trans
      (by decide),
    ((output_writes_exactly (⟨[1, 2, 3, 4, 5, 7, 7, 7], 5⟩ : MinimumHeap Int) ""
      (by decide)).2.1).trans (by decide)⟩

/-- C16 (`to_string ()`), evaluated on the code.  `to_string` writes the heap to
a string stream and then reads one string back with `ss >> str`, which stops at
the first white space.  For a heap holding 1, 2, 3, 4, 5 the stream holds
`MinimumHeap [1, 2, 3, 4, 5]` and `to_string ()` returns `MinimumHeap`. -/
theorem to_string_returns_first_word :
    (output (⟨[1, 2, 3, 4, 5], 5⟩ : MinimumHeap Int) "").map Prod.fst
      = some "MinimumHeap [1, 2, 3, 4, 5]" ∧
    to_string (⟨[1, 2, 3, 4, 5], 5⟩ : MinimumHeap Int)
      = some ("MinimumHeap", ⟨[1, 2, 3, 4, 5], 5⟩) ∧
    to_string (mk_default : MinimumHeap Int) = some ("MinimumHeap", mk_default) := by
  decide

/-- C17 (duplicates of the minimum).  Take any heap built by a constructor call
(capacity hint or vector, copied or moved) followed by any inserts, fewer than
`2 ^ 63` elements in all, whose logical contents hold `k ≥ 1` copies of their
least value `m`.  The heap satisfies the heap-order invariant, each of the first
`k` calls of `pop ()` returns `m`, and every element left after them is
strictly larger than `m`. -/
theorem duplicates_drain_first [MovedFrom α] (ctor : Ctor α) (xs : List α)
    (h0 h : MinimumHeap α) (m : α) (k : Nat) (hb : ctor.count + xs.length < 2 ^ 63)
    (hc : construct ctor = some h0) (hi : insertAll h0 xs = some h)
    (hmin : ∀ y, y ∈ contents h → m ≤ y) (hcount : (contents h).count m = k) (hk : 1 ≤ k) :
    HeapOrdered h ∧ m ∈ contents h ∧
    ∃ hk, popN k h = some (List.replicate k (.ok m), hk) ∧ hk._size + k = h._size ∧
      ∀ y, y ∈ contents hk → m < y := by
  obtain ⟨hwf, ho, hs⟩ := built_heap_inv ctor xs h0 h hb hc hi
  obtain ⟨hk1, hp, _, _, hsz, hgt⟩ := popN_min k h m hwf ho hs hmin hcount
  exact ⟨ho, List.count_pos_iff.mp (by omega), hk1, hp, hsz, hgt⟩

/-- Witness for C17: the vector 2, 1, 3, 1, 1 followed by the inserts 1 and 4
holds four copies of its least value 1. -/
theorem duplicates_drain_first_witness :
    HeapOrdered (⟨[1, 1, 1, 2, 1, 3, 4, 0, 0, 0], 7⟩ : MinimumHeap Int) ∧
    (1 : Int) ∈ contents (⟨[1, 1, 1, 2, 1, 3, 4, 0, 0, 0], 7⟩ : MinimumHeap Int) ∧
    ∃ hk, popN 4 (⟨[1, 1, 1, 2, 1, 3, 4, 0, 0, 0], 7⟩ : MinimumHeap Int)
        = some (List.replicate 4 (.ok 1), hk) ∧
      hk._size + 4 = (⟨[1, 1, 1, 2, 1, 3, 4, 0, 0, 0], 7⟩ : MinimumHeap Int)._size ∧
      ∀ y, y ∈ contents hk → (1 : Int) < y :=
  duplicates_drain_first (Ctor.copyVector [2, 1, 3, 1, 1]) [1, 4]
    ⟨[1, 1, 3, 2, 1], 5⟩ ⟨[1, 1, 1, 2, 1, 3, 4, 0, 0, 0], 7⟩ 1 4
    (by decide) (by decide) (by decide) (by decide) (by decide) (by decide)

/-- C18 (the two extraction forms).  For every heap and every value of the
caller's variable, `pop (element&)` returns normally exactly when `pop ()`
does, the variable then holds the value `pop ()` returns and the heap left
behind is the same heap, field by field; one form throws exactly when the other
does, with the same exception and the heap untouched, and `pop (element&)` then
leaves the variable as it was. -/
theorem pop_forms_agree [MovedFrom α] (h : MinimumHeap α) (element : α) :
    (∀ m h1, pop h = some (.ok m, h1) ↔ popInto h element = some (.ok (), m, h1)) ∧
    (∀ e h1, pop h = some (.error e, h1) ↔
      popInto h element = some (.error e, element, h1)) ∧
    (pop h = none ↔ popInto h element = none) := by
  unfold pop popInto
  by_cases he : h.empty = true
  · simp [he]
  · simp only [he, Bool.false_eq_true, if_false]
    by_cases hsz : decr h._size > 0
    · simp only [hsz, if_true]
      cases minimumHeapify
        { _elements := ((h._elements.set 0 (movedFrom (rd h._elements 0))).set 0
            (rd (h._elements.set 0 (movedFrom (rd h._elements 0))) (decr h._size))).set
              (decr h._size)
              (movedFrom (rd (h._elements.set 0 (movedFrom (rd h._elements 0)))
                (decr h._size))),
          _size := decr h._size } 0 with
      | none => simp
      | some h2 => simp
    · simp [hsz]

/-- C19 (sift-down correctness).  Let `i < _size` be a position such that every
position of the subtree rooted at `i`, other than `i` itself, is `≤` its
in-bounds children.  Then `minimumHeapify (i)` returns; afterwards every
position of the subtree rooted at `i` is `≤` its in-bounds children; every
position outside the subtree, and every position at or beyond `_size`, holds
the element it held before; the logical contents are a permutation of the
previous ones, so elements only change places inside the subtree; and `_size` and
the length of the backing vector are unchanged. -/
theorem sift_down_correct (h : MinimumHeap α) (i : Nat) (hi : i < h._size)
    (hs : h._size < 2 ^ 63) (hwf : Wf h)
    (hsub : ∀ j, InSubtree i j → j ≠ i → j < h._size → ∀ c, c < h._size →
      (c = 2 * j + 1 ∨ c = 2 * j + 2) → rd h._elements j ≤ rd h._elements c) :
    ∃ h1, minimumHeapify h i = some h1 ∧ h1._size = h._size ∧
      h1._elements.length = h._elements.length ∧
      (∀ j, InSubtree i j → j < h._size → ∀ c, c < h._size →
        (c = 2 * j + 1 ∨ c = 2 * j + 2) → rd h1._elements j ≤ rd h1._elements c) ∧
      (∀ k, (¬ InSubtree i k ∨ h._size ≤ k) → rd h1._elements k = rd h._elements k) ∧
      (contents h1).Perm (contents h) := by
  obtain ⟨h1, hh1, hsz, hlen, hord, hperm, hfix⟩ :=
    minimumHeapifyFuel_subtree i (h._size + 1) h i hi hs hwf (by omega) InSubtree.root
      (by
        intro j _ hjn hjr hjp
        exact hsub ((j - 1) / 2) hjr hjp (by omega) j hjn (by omega))
      (by
        intro j _ _ _ hne
        exact absurd rfl hne)
  refine ⟨h1, hh1, hsz, hlen, ?_, hfix, hperm⟩
  intro j hj _ c hc hcj
  have := hord c (by omega) hc (by
    have hp : (c - 1) / 2 = j := by omega
    rw [hp]
    exact hj)
  have hp : (c - 1) / 2 = j := by omega
  rwa [hp] at this

/-- Witness for C19: in 0, 9, 1, 2, 3, 7, 8, 4, 5 the position 1 holds 9 above the
heap-ordered subtrees at 3 and 4; `minimumHeapify (1)` leaves
0, 2, 1, 4, 3, 7, 8, 9, 5. -/
theorem sift_down_correct_witness :
    minimumHeapify (⟨[0, 9, 1, 2, 3, 7, 8, 4, 5], 9⟩ : MinimumHeap Int) 1
      = some ⟨[0, 2, 1, 4, 3, 7, 8, 9, 5], 9⟩ ∧
    ∃ h1, minimumHeapify (⟨[0, 9, 1, 2, 3, 7, 8, 4, 5], 9⟩ : MinimumHeap Int) 1 = some h1 ∧
      h1._size = (⟨[0, 9, 1, 2, 3, 7, 8, 4, 5], 9⟩ : MinimumHeap Int)._size ∧
      h1._elements.length
        = (⟨[0, 9, 1, 2, 3, 7, 8, 4, 5], 9⟩ : MinimumHeap Int)._elements.length ∧
      (∀ j, InSubtree 1 j → j < (⟨[0, 9, 1, 2, 3, 7, 8, 4, 5], 9⟩ : MinimumHeap Int)._size →
        ∀ c, c < (⟨[0, 9, 1, 2, 3, 7, 8, 4, 5], 9⟩ : MinimumHeap Int)._size →
        (c = 2 * j + 1 ∨ c = 2 * j + 2) → rd h1._elements j ≤ rd h1._elements c) ∧
      (∀ k, (¬ InSubtree 1 k ∨
          (⟨[0, 9, 1, 2, 3, 7, 8, 4, 5], 9⟩ : MinimumHeap Int)._size ≤ k) →
        rd h1._elements k
          = rd (⟨[0, 9, 1, 2, 3, 7, 8, 4, 5], 9⟩ : MinimumHeap Int)._elements k) ∧
      (contents h1).Perm (contents (⟨[0, 9, 1, 2, 3, 7, 8, 4, 5], 9⟩ : MinimumHeap Int)) :=
  ⟨by decide,
    sift_down_correct (⟨[0, 9, 1, 2, 3, 7, 8, 4, 5], 9⟩ : MinimumHeap Int) 1 (by decide)
      (by decide) (by decide) (by
        intro j _ hj1 hj c hc hcj
        simp only at hj hc
        have hcases : j = 0 ∨ j = 2 ∨ j = 3 ∨ 4 ≤ j := by omega
        rcases hcases with rfl | rfl | rfl | h4
        · rcases hcj with rfl | rfl <;> decide
        · rcases hcj with rfl | rfl <;> decide
        · rcases hcj with rfl | rfl <;> decide
        · omega)⟩

/-- C20 (sift-down terminates).  For every heap (fewer than `2 ^ 63` elements)
and every start index `i` for which `2 i + 2` does not overflow `size_t`,
`minimumHeapify (i)` returns, with `_size` unchanged, and its result is the same
for every bound on the nesting of calls above `_size`.  The reason: a nested
call is made only on a child index `2 i + 1` or `2 i + 2` that is strictly
greater than `i`, strictly less than `_size`, and holds a strictly smaller
element; and when no in-bounds child holds a strictly smaller element (in
particular when no child is in bounds) the call returns at once and leaves the
heap as it is. -/
theorem sift_down_terminates (h : MinimumHeap α) (i : Nat) (hs : h._size < 2 ^ 63)
    (hi : 2 * i + 2 < 2 ^ 64) :
    (∃ h1, minimumHeapify h i = some h1 ∧ h1._size = h._size ∧
      ∀ fuel, h._size < fuel → minimumHeapifyFuel fuel h i = some h1) ∧
    (smallest h i ≠ i →
      (smallest h i = 2 * i + 1 ∨ smallest h i = 2 * i + 2) ∧ i < smallest h i ∧
        smallest h i < h._size ∧ rd h._elements (smallest h i) < rd h._elements i) ∧
    ((∀ c, c < h._size → (c = 2 * i + 1 ∨ c = 2 * i + 2) →
        ¬ rd h._elements c < rd h._elements i) →
      ∀ fuel, minimumHeapifyFuel (fuel + 1) h i = some h) := by
  obtain ⟨hsm, _⟩ := smallest_spec_nowrap h i hi
  refine ⟨?_, ?_, ?_⟩
  · obtain ⟨h1, hsz, hall⟩ := minimumHeapifyFuel_terminates h._size h i (by omega) hs hi
    exact ⟨h1, hall (h._size + 1) (by omega), hsz, hall⟩
  · intro hne
    rcases hsm with hsm | ⟨hsc, hsn, hlt⟩
    · exact absurd hsm hne
    · exact ⟨hsc, by omega, hsn, hlt⟩
  · intro hno fuel
    have hsi : smallest h i = i := by
      rcases hsm with hsm | ⟨hsc, hsn, hlt⟩
      · exact hsm
      · exact absurd hlt (hno _ hsn hsc)
    simp only [minimumHeapifyFuel]
    rw [if_neg (by simpa using hsi)]

/-- Witness for C20: `minimumHeapify (0)` on 9, 1, 2, 3, 4 makes two nested
calls (at 1 and at 3) and returns 1, 3, 2, 9, 4. -/
theorem sift_down_terminates_witness :
    (⟨[9, 1, 2, 3, 4], 5⟩ : MinimumHeap Int)._size < 2 ^ 63 ∧ 2 * 0 + 2 < 2 ^ 64 ∧
    minimumHeapify (⟨[9, 1, 2, 3, 4], 5⟩ : MinimumHeap Int) 0 = some ⟨[1, 3, 2, 9, 4], 5⟩ ∧
    ∃ h1, minimumHeapify (⟨[9, 1, 2, 3, 4], 5⟩ : MinimumHeap Int) 0 = some h1 ∧
      h1._size = (⟨[9, 1, 2, 3, 4], 5⟩ : MinimumHeap Int)._size ∧
      ∀ fuel, (⟨[9, 1, 2, 3, 4], 5⟩ : MinimumHeap Int)._size < fuel →
        minimumHeapifyFuel fuel (⟨[9, 1, 2, 3, 4], 5⟩ : MinimumHeap Int) 0 = some h1 :=
  ⟨by decide, by decide, by decide,
    (sift_down_terminates (⟨[9, 1, 2, 3, 4], 5⟩ : MinimumHeap Int) 0 (by decide)
      (by decide)).1⟩

/-- C21 (sift-down tie-breaking).  In one step of `minimumHeapify (i)` (with
`2 i + 2` not overflowing `size_t`) a child becomes `smallest` only if it holds
a strictly smaller element than `i`, and the right child replaces the left one
only if it is strictly smaller than the left one.  Hence (a) when no in-bounds
child is strictly smaller than element `i` (a child may be equal to it) the
call returns the heap exactly as it received it; and (b) when both children are
in bounds, equal to each other and strictly smaller than element `i`, the swap
is made with the left child `2 i + 1` and the call continues there. -/
theorem sift_down_tie_breaking (h : MinimumHeap α) (i : Nat) (hi : 2 * i + 2 < 2 ^ 64) :
    (smallest h i ≠ i → rd h._elements (smallest h i) < rd h._elements i) ∧
    (smallest h i = 2 * i + 2 → 2 * i + 1 < h._size →
      rd h._elements (2 * i + 2) < rd h._elements (2 * i + 1)) ∧
    ((∀ c, c < h._size → (c = 2 * i + 1 ∨ c = 2 * i + 2) →
        ¬ rd h._elements c < rd h._elements i) →
      smallest h i = i ∧ minimumHeapify h i = some h ∧
        ∀ fuel, minimumHeapifyFuel (fuel + 1) h i = some h) ∧
    (2 * i + 2 < h._size → rd h._elements (2 * i + 1) = rd h._elements (2 * i + 2) →
      rd h._elements (2 * i + 1) < rd h._elements i →
      smallest h i = 2 * i + 1 ∧
        ∀ fuel, minimumHeapifyFuel (fuel + 1) h i
          = minimumHeapifyFuel fuel
              { h with _elements := swapAt h._elements i (2 * i + 1) } (2 * i + 1)) := by
  obtain ⟨hsm, _⟩ := smallest_spec_nowrap h i hi
  refine ⟨?_, smallest_right_strict h i hi, ?_, ?_⟩
  · intro hne
    rcases hsm with hsm | ⟨_, _, hlt⟩
    · exact absurd hsm hne
    · exact hlt
  · intro hno
    have hsi : smallest h i = i := by
      rcases hsm with hsm | ⟨hsc, hsn, hlt⟩
      · exact hsm
      · exact absurd hlt (hno _ hsn hsc)
    have hstep : ∀ fuel, minimumHeapifyFuel (fuel + 1) h i = some h := by
      intro fuel
      simp only [minimumHeapifyFuel]
      rw [if_neg (by simpa using hsi)]
    exact ⟨hsi, hstep h._size, hstep⟩
  · intro hr heq hlt
    have hsl : smallest h i = 2 * i + 1 := smallest_left_on_tie h i hi (by omega) heq hlt
    refine ⟨hsl, ?_⟩
    intro fuel
    simp only [minimumHeapifyFuel]
    rw [if_pos (by rw [hsl]; omega), hsl]

/-- Witness for C21: (a) on 1, 1, 2 the left child ties with the root and
`minimumHeapify (0)` changes nothing; (b) on 5, 2, 2 the children tie below the
root and `minimumHeapify (0)` swaps the root with the left child, giving
2, 5, 2. -/
theorem sift_down_tie_breaking_witness :
    2 * 0 + 2 < 2 ^ 64 ∧
    (smallest (⟨[1, 1, 2], 3⟩ : MinimumHeap Int) 0 = 0 ∧
      minimumHeapify (⟨[1, 1, 2], 3⟩ : MinimumHeap Int) 0 = some ⟨[1, 1, 2], 3⟩ ∧
      ∀ fuel, minimumHeapifyFuel (fuel + 1) (⟨[1, 1, 2], 3⟩ : MinimumHeap Int) 0
        = some ⟨[1, 1, 2], 3⟩) ∧
    smallest (⟨[5, 2, 2], 3⟩ : MinimumHeap Int) 0 = 2 * 0 + 1 ∧
    minimumHeapify (⟨[5, 2, 2], 3⟩ : MinimumHeap Int) 0 = some ⟨[2, 5, 2], 3⟩ :=
  ⟨by decide,
    (sift_down_tie_breaking (⟨[1, 1, 2], 3⟩ : MinimumHeap Int) 0 (by decide)).2.2.1 (by decide),
    ((sift_down_tie_breaking (⟨[5, 2, 2], 3⟩ : MinimumHeap Int) 0 (by decide)).2.2.2
      (by decide) (by decide) (by decide)).1,
    by decide⟩

/-- C22 (the loop of `makeMinHeap` on 64-bit `size_t`).  For `_size` 0 and 1 the
start index `parent (_size - 1)` wraps to `2 ^ 63 - 1`, which is not below
`_size`: no `minimumHeapify` call is made and the heap is returned as it is.
For `2 ≤ _size` (below `2 ^ 63`) the start index is `(_size - 2) / 2`, the calls
of `minimumHeapify` are made at exactly the indices
`parent (_size - 1)`, `parent (_size - 1) - 1`, ..., 1, 0, in that order and once
each, and then the loop ends because `0 - 1` wraps to `2 ^ 64 - 1`. -/
theorem bulk_heapify_loop (h : MinimumHeap α) :
    (parent (decr 0) = 2 ^ 63 - 1 ∧ parent (decr 1) = 2 ^ 63 - 1 ∧ decr 0 = 2 ^ 64 - 1) ∧
    ((h._size = 0 ∨ h._size = 1) →
      makeMinHeapTrace h = some ([], h) ∧ makeMinHeap h = some h) ∧
    (2 ≤ h._size → h._size < 2 ^ 63 →
      parent (decr h._size) = (h._size - 2) / 2 ∧
      ∃ h1, makeMinHeapTrace h = some ((List.range (parent (decr h._size) + 1)).reverse, h1) ∧
        makeMinHeap h = some h1 ∧ h1._size = h._size) := by
  have hp0 : parent (decr 0) = 2 ^ 63 - 1 := by
    unfold parent decr
    rw [SIZE_MOD_eq]
    omega
  have hp1 : parent (decr 1) = 2 ^ 63 - 1 := by
    unfold parent decr
    rw [SIZE_MOD_eq]
    omega
  refine ⟨⟨hp0, hp1, decr_zero⟩, ?_, ?_⟩
  · intro h01
    have hnot : ¬ parent (decr h._size) < h._size := by
      rcases h01 with h0 | h1
      · rw [h0]; omega
      · rw [h1, hp1]; omega
    constructor
    · unfold makeMinHeapTrace
      simp only [makeMinHeapLoopTrace, if_neg hnot]
    · unfold makeMinHeap
      simp only [makeMinHeapLoop, if_neg hnot]
  · intro h2 hs
    have hp : parent (decr h._size) = (h._size - 2) / 2 := by
      rw [decr_eq h._size (by omega) (by omega), parent_eq (h._size - 1) (by omega) (by omega)]
      congr 1
    refine ⟨hp, ?_⟩
    obtain ⟨h1, hh1, hsz⟩ :=
      makeMinHeapLoopTrace_spec ((h._size - 2) / 2) (h._size + 1) h (by omega) hs (by omega)
    refine ⟨h1, ?_, ?_, hsz⟩
    · unfold makeMinHeapTrace
      rw [hp]
      exact hh1
    · unfold makeMinHeap
      rw [← makeMinHeapLoopTrace_heap, hp, hh1]
      rfl

/-- Witness for C22: on 9, 8, 7, 6, 5, 4, 3, 2, 1 the calls are made at 3, 2, 1, 0
and the result is 1, 2, 3, 6, 5, 4, 7, 8, 9; on the empty vector and on the
one-element vector no call is made. -/
theorem bulk_heapify_loop_witness :
    (makeMinHeapTrace (⟨[], 0⟩ : MinimumHeap Int) = some ([], ⟨[], 0⟩) ∧
      makeMinHeap (⟨[], 0⟩ : MinimumHeap Int) = some ⟨[], 0⟩) ∧
    (makeMinHeapTrace (⟨[7], 1⟩ : MinimumHeap Int) = some ([], ⟨[7], 1⟩) ∧
      makeMinHeap (⟨[7], 1⟩ : MinimumHeap Int) = some ⟨[7], 1⟩) ∧
    makeMinHeapTrace (⟨[9, 8, 7, 6, 5, 4, 3, 2, 1], 9⟩ : MinimumHeap Int)
      = some ([3, 2, 1, 0], ⟨[1, 2, 3, 6, 5, 4, 7, 8, 9], 9⟩) ∧
    (parent (decr (⟨[9, 8, 7, 6, 5, 4, 3, 2, 1], 9⟩ : MinimumHeap Int)._size)
        = ((⟨[9, 8, 7, 6, 5, 4, 3, 2, 1], 9⟩ : MinimumHeap Int)._size - 2) / 2 ∧
      ∃ h1, makeMinHeapTrace (⟨[9, 8, 7, 6, 5, 4, 3, 2, 1], 9⟩ : MinimumHeap Int)
          = some ((List.range
              (parent (decr (⟨[9, 8, 7, 6, 5, 4, 3, 2, 1], 9⟩ : MinimumHeap Int)._size)
                + 1)).reverse, h1) ∧
        makeMinHeap (⟨[9, 8, 7, 6, 5, 4, 3, 2, 1], 9⟩ : MinimumHeap Int) = some h1 ∧
        h1._size = (⟨[9, 8, 7, 6, 5, 4, 3, 2, 1], 9⟩ : MinimumHeap Int)._size) :=
  ⟨(bulk_heapify_loop (⟨[], 0⟩ : MinimumHeap Int)).2.1 (by decide),
    (bulk_heapify_loop (⟨[7], 1⟩ : MinimumHeap Int)).2.1 (by decide),
    by decide,
    (bulk_heapify_loop (⟨[9, 8, 7, 6, 5, 4, 3, 2, 1], 9⟩ : MinimumHeap Int)).2.2 (by decide)
      (by decide)⟩

/-- C23 (size never exceeds capacity).  `_size ≤ _elements.size ()` holds for the
heap of every constructor call (capacity hint, vector by copy, vector by move),
and when it holds for a heap it holds again after `insert`, after `pop ()`,
after `pop (element&)` and after `clear ()`.  In `insert` the backing vector is
lengthened exactly when `_size` equals its length, to 2 when `_size` is 0 and to
twice `_size` otherwise, keeping the elements below `_size`; this happens before
the new element is placed, so index `_size` lies inside the vector when it is
written, and the sift-up leaves the length as it is. -/
theorem size_within_capacity [MovedFrom α] (h : MinimumHeap α) (hwf : Wf h)
    (hs : h._size < 2 ^ 63) :
    (∀ c, Wf (mk_capacity c : MinimumHeap α)) ∧
    (∀ v : List α, v.length < 2 ^ 63 →
      (∃ hc, mk_vector_copy v = some hc ∧ Wf hc) ∧ (∃ hm, mk_vector_move v = some hm ∧ Wf hm)) ∧
    (∀ x, ∃ h1, insert h x = some h1 ∧ Wf h1 ∧
      insert h x = (siftUpFuel (h._size + 1) ((grownElements h).set h._size x) h._size).map
        (fun v => { _elements := v, _size := incr h._size }) ∧
      h._size < (grownElements h).length ∧
      (grownElements h).length =
        (if h._size = h._elements.length then (if h._size ≠ 0 then h._size * 2 else 2)
         else h._elements.length) ∧
      (grownElements h).take h._size = h._elements.take h._size ∧
      h1._elements.length = (grownElements h).length) ∧
    (∃ r h1, pop h = some (r, h1) ∧ Wf h1) ∧
    (∀ x, ∃ r x1 h1, popInto h x = some (r, x1, h1) ∧ Wf h1) ∧
    Wf (clear h) := by
  refine ⟨?_, ?_, ?_, ?_, ?_, ?_⟩
  · intro c
    unfold Wf mk_capacity
    simp
  · intro v hv
    obtain ⟨hc, hh, hsz, hl, _, _⟩ := mk_vector_copy_spec v hv
    obtain ⟨hm, hh', hsz', hl', _, _⟩ := mk_vector_move_spec v hv
    exact ⟨⟨hc, hh, by unfold Wf; omega⟩, ⟨hm, hh', by unfold Wf; omega⟩⟩
  · intro x
    obtain ⟨r1, _, e1, _, _, _, hwf1, _, hlen⟩ := insert_agree h h x (agree_refl h) hwf hwf hs
    obtain ⟨hg1, hg2, hg3⟩ := grownElements_spec h hwf hs
    exact ⟨r1, e1, hwf1, insert_eq_grown h x, hg1, hg3, hg2, hlen⟩
  · obtain ⟨r, r1, _, e1, _, _, _, hwf1, _⟩ := pop_agree h h (agree_refl h) hwf hwf hs
    exact ⟨r, r1, e1, hwf1⟩
  · intro x
    by_cases h0 : h._size = 0
    · exact ⟨.error .MinimumHeapUnderflowException, x, h, by simp [popInto_eq, empty, h0], hwf⟩
    · obtain ⟨h1, hh1, _, hwf1⟩ := popRoot_total h hwf (by omega) hs
      exact ⟨.ok (), rd h._elements 0, h1, by simp [popInto_eq, empty, h0, hh1], hwf1⟩
  · unfold Wf clear
    simp

/-- Witness for C23: the full heap 2, 3, 4, 5 (four slots); `insert (1)` lengthens
the vector to eight slots and leaves five elements in it. -/
theorem size_within_capacity_witness :
    Wf (⟨[2, 3, 4, 5], 4⟩ : MinimumHeap Int) ∧
    (⟨[2, 3, 4, 5], 4⟩ : MinimumHeap Int)._size < 2 ^ 63 ∧
    insert (⟨[2, 3, 4, 5], 4⟩ : MinimumHeap Int) 1 = some ⟨[1, 2, 4, 5, 3, 0, 0, 0], 5⟩ ∧
    grownElements (⟨[2, 3, 4, 5], 4⟩ : MinimumHeap Int) = [2, 3, 4, 5, 0, 0, 0, 0] ∧
    (∃ r h1, pop (⟨[2, 3, 4, 5], 4⟩ : MinimumHeap Int) = some (r, h1) ∧ Wf h1) ∧
    Wf (clear (⟨[2, 3, 4, 5], 4⟩ : MinimumHeap Int)) :=
  ⟨by decide, by decide, by decide, by decide,
    (size_within_capacity (⟨[2, 3, 4, 5], 4⟩ : MinimumHeap Int) (by decide) (by decide)).2.2.2.1,
    (size_within_capacity (⟨[2, 3, 4, 5], 4⟩ : MinimumHeap Int) (by decide)
      (by decide)).2.2.2.2.2⟩

/-- C24 (stale slots never influence results).  Take two heaps with the same
`_size` and the same element at every index below it; their backing vectors may
differ in length and in what they hold at or beyond `_size`.  Apply to both the
same sequence of `insert`, `pop ()`, `top ()`, `size ()`, `empty ()`, `output`
and `at (i)` calls, every `at (i)` being made with `i < size ()`, short enough
for the element count to stay below `2 ^ 63`.  Then every call hands back the
same result on both heaps, thrown exceptions included, and the two heaps end
with the same `_size` and the same element at every index below it. -/
theorem stale_slots_do_not_matter [MovedFrom α] [Streamed α] (h1 h2 : MinimumHeap α)
    (ops : List (Op α)) (hwf1 : Wf h1) (hwf2 : Wf h2) (hag : Agree h1 h2)
    (hb : h1._size + ops.length < 2 ^ 63) (hat : atBelowSize h1 ops = true) :
    ∃ rs r1 r2, runOps h1 ops = some (rs, r1) ∧ runOps h2 ops = some (rs, r2) ∧
      rs.length = ops.length ∧ Agree r1 r2 := by
  obtain ⟨rs, r1, r2, e1, e2, hagr, _, _, hlen⟩ := runOps_agree ops h1 h2 hag hwf1 hwf2 hb hat
  exact ⟨rs, r1, r2, e1, e2, hlen, hagr⟩

/-- Witness for C24: a heap cleared after holding 9, 8, 7 (no slot left) against
a default-constructed heap (two value-initialised slots), under insert 3,
insert 1, top, size, empty, output, at (0), and three pops, the last of which
throws on both. -/
theorem stale_slots_do_not_matter_witness :
    Wf (clear (⟨[7, 8, 9], 3⟩ : MinimumHeap Int)) ∧ Wf (mk_default : MinimumHeap Int) ∧
    Agree (clear (⟨[7, 8, 9], 3⟩ : MinimumHeap Int)) mk_default ∧
    (clear (⟨[7, 8, 9], 3⟩ : MinimumHeap Int))._elements ≠
      (mk_default : MinimumHeap Int)._elements ∧
    (runOps (clear (⟨[7, 8, 9], 3⟩ : MinimumHeap Int))
        [.insert 3, .insert 1, .top, .size, .empty, .output "", .atIndex 0, .pop, .pop, .pop]).map
          Prod.fst
      = some [.done, .done, .value (.ok 1), .count 2, .flag false, .text "MinimumHeap [1, 3]",
          .value (.ok 1), .value (.ok 1), .value (.ok 3),
          .value (.error .MinimumHeapUnderflowException)] ∧
    ∃ rs r1 r2,
      runOps (clear (⟨[7, 8, 9], 3⟩ : MinimumHeap Int))
        [.insert 3, .insert 1, .top, .size, .empty, .output "", .atIndex 0, .pop, .pop, .pop]
        = some (rs, r1) ∧
      runOps (mk_default : MinimumHeap Int)
        [.insert 3, .insert 1, .top, .size, .empty, .output "", .atIndex 0, .pop, .pop, .pop]
        = some (rs, r2) ∧
      rs.length = ([.insert 3, .insert 1, .top, .size, .empty, .output "", .atIndex 0, .pop,
        .pop, .pop] : List (Op Int)).length ∧
      Agree r1 r2 :=
  ⟨by decide, by decide, by decide, by decide, by decide,
    stale_slots_do_not_matter _ _ _ (by decide) (by decide) (by decide) (by decide)
      (by decide)⟩

end Claims

end MinimumHeap
